import Mathlib

/-!
A shallow embedding of the SSSP relaxation engine of
src/exp/apps/sssp/FifoSSSP.cpp and of the edge-list loader of
src/tools/dist-graph-convert/dist-graph-convert-helpers.h.

Machine integers: `Dist` in the source is a 32-bit unsigned integer, so
distance arithmetic is modelled on `Nat` with an explicit reduction modulo
`2 ^ 32` at every addition the source performs on `Dist` values.

Concurrency: the parallel algorithms are modelled as sequential
nondeterministic worklist systems.  One step pops one work item, chosen by
an arbitrary schedule, and runs the operator atomically.  In such an
interference-free execution a `compare_exchange` succeeds on its first
attempt, so the CAS path and the non-CAS write path of the templated
operator (the `UseCas` parameter of `AsyncAlgo` and `AsyncSetAlgo`)
perform the same state change and are embedded as one function.  The
per-thread OBIM buckets, the dChunkedFIFO and the work-set wrappers only
influence which queued item is popped next, and which duplicate pushes
are dropped; both degrees of freedom are exposed as parameters (the
schedule, and the `useSet` flag of the vertex-request system).
-/

/-- The modulus of 32-bit unsigned arithmetic (`Dist` is `uint32_t`). -/
def M32 : Nat := 2 ^ 32

/-- Modelled from the spec: SSSP.h, the home of `Dist` and `DIST_INFINITY`,
is not under src/; the spec fixes the unreached sentinel `INF = 2^32 - 1`. -/
def INF : Nat := 2 ^ 32 - 1

/-- A directed graph: a vertex count and out-adjacency lists of
(destination, weight) pairs.  This is the read-only interface the engine
uses (`numVertices`, `outEdges`). -/
structure Graph where
  n : Nat
  adj : Nat → List (Nat × Nat)

/-! ## AsyncAlgo: request-carrying operator (FifoSSSP.cpp lines 305-416) -/

/-- Result of one `AsyncAlgo::relaxEdge` call: the distance map after the
call, the update requests pushed, the `BadWork` increment and an overflow
observation: `ok` records that the 32-bit sum `sdist + d` computed by the
call did not wrap (it is not part of the source state; it only observes
the arithmetic so that wrap-free runs can be singled out). -/
structure EdgeRes where
  dist : Nat → Nat
  pushes : List (Nat × Nat)
  bad : Nat
  ok : Bool

/-- `AsyncAlgo::relaxEdge` (lines 335-351), sequentialized: read the edge,
compute `newDist = sdist + d` in 32 bits, and run the CAS loop, which in
an interference-free execution performs at most one successful update.
`trackWork` is the compile-time constant `true`. -/
def relaxEdge (dist : Nat → Nat) (sdist : Nat) (e : Nat × Nat) : EdgeRes :=
  if (sdist + e.2) % M32 < dist e.1 then
    ⟨fun x => if x = e.1 then (sdist + e.2) % M32 else dist x,
     [(e.1, (sdist + e.2) % M32)],
     if dist e.1 ≠ INF then 1 else 0,
     decide (sdist + e.2 < M32)⟩
  else
    ⟨dist, [], 0, decide (sdist + e.2 < M32)⟩

/-- Result of an edge-scan loop of the request-carrying operator. -/
structure ScanRes where
  dist : Nat → Nat
  pushes : List (Nat × Nat)
  emptyW : Nat
  bad : Nat
  ok : Bool

/-- The edge loop of `AsyncAlgo::relaxNode` (lines 364-371): before every
edge the stale check `req.w != sdist` is repeated (`sdist` is a reference
into the node data, re-read at each mention) and on failure `WLEmptyWork`
is bumped and the loop breaks; otherwise the edge is relaxed. -/
def scanEdges (w v : Nat) : List (Nat × Nat) → (Nat → Nat) → ScanRes
  | [], dist => ⟨dist, [], 0, 0, true⟩
  | e :: es, dist =>
    if w ≠ dist v then ⟨dist, [], 1, 0, true⟩
    else
      let r := relaxEdge dist (dist v) e
      let rest := scanEdges w v es r.dist
      ⟨rest.dist, r.pushes ++ rest.pushes, rest.emptyW, r.bad + rest.bad,
       r.ok && rest.ok⟩

/-- `AsyncAlgo::relaxNode` (lines 353-372): the empty-work gate followed by
the edge scan. -/
def relaxNode (g : Graph) (dist : Nat → Nat) (req : Nat × Nat) : ScanRes :=
  if req.2 ≠ dist req.1 then ⟨dist, [], 1, 0, true⟩
  else scanEdges req.2 req.1 (g.adj req.1) dist

/-- State of the request-carrying worklist system: the distance map, the
multiset of queued `UpdateRequest`s (as a list), the `EmptyWork` and
`BadWork` statistics, and the accumulated no-wrap observation. -/
structure AState where
  dist : Nat → Nat
  wl : List (Nat × Nat)
  emptyW : Nat
  badW : Nat
  ok : Bool

/-- One step of the request-carrying system: the schedule entry `i` picks
the queued request to pop (this covers every OBIM and dChunkedFIFO pop
order); the popped request is processed by `relaxNode` and its pushes are
queued.  An out-of-range pick is a no-op. -/
def astep (g : Graph) (s : AState) (i : Nat) : AState :=
  match s.wl[i]? with
  | none => s
  | some req =>
    let r := relaxNode g s.dist req
    ⟨r.dist, s.wl.eraseIdx i ++ r.pushes, s.emptyW + r.emptyW,
     s.badW + r.bad, s.ok && r.ok⟩

/-- Run the request-carrying system under a schedule. -/
def arun (g : Graph) : List Nat → AState → AState
  | [], s => s
  | i :: sch, s => arun g sch (astep g s i)

/-- The initial-frontier loop of `AsyncAlgo::operator()` (lines 405-410)
and of `AsyncAlgo::InitialProcess`: every out-edge of `source` is relaxed
directly into the initial bag; `sdata.dist` is re-read for each edge. -/
def initScan (v : Nat) : List (Nat × Nat) → (Nat → Nat) → ScanRes
  | [], dist => ⟨dist, [], 0, 0, true⟩
  | e :: es, dist =>
    let r := relaxEdge dist (dist v) e
    let rest := initScan v es r.dist
    ⟨rest.dist, r.pushes ++ rest.pushes, 0, r.bad + rest.bad,
     r.ok && rest.ok⟩

/-- The state after the driver initialization of the request-carrying
algorithm: `run` sets every `dist` to `INF` (`AsyncAlgo::Initialize` via
`do_all_local`), then `operator()` sets `dist[source] = 0` and seeds the
bag from the out-edges of `source`. -/
def ainit (g : Graph) (source : Nat) : AState :=
  let r := initScan source (g.adj source)
    (fun v => if v = source then 0 else INF)
  ⟨r.dist, r.pushes, 0, r.bad, r.ok⟩

/-! ## AsyncSetAlgo: blind vertex-request operator (lines 443-584) -/

/-- Result of one `AsyncSetAlgo::relaxEdge` call; pushes carry only the
destination vertex. -/
structure EdgeResS where
  dist : Nat → Nat
  pushes : List Nat
  bad : Nat
  ok : Bool

/-- `AsyncSetAlgo::relaxEdge` (lines 473-490): identical relax protocol,
but the push carries only `dst`. -/
def relaxEdgeSet (dist : Nat → Nat) (sdist : Nat) (e : Nat × Nat) : EdgeResS :=
  if (sdist + e.2) % M32 < dist e.1 then
    ⟨fun x => if x = e.1 then (sdist + e.2) % M32 else dist x,
     [e.1],
     if dist e.1 ≠ INF then 1 else 0,
     decide (sdist + e.2 < M32)⟩
  else
    ⟨dist, [], 0, decide (sdist + e.2 < M32)⟩

/-- Result of a blind edge scan of the vertex-request operator. -/
structure ScanResS where
  dist : Nat → Nat
  pushes : List Nat
  bad : Nat
  ok : Bool

/-- `AsyncSetAlgo::relaxNode` (lines 492-500) and
`AsyncSetAlgo::InitialProcess`: a blind scan of all out-edges of `v`, with
no empty-work gate; `sdata.dist` is re-read for each edge. -/
def setScan (v : Nat) : List (Nat × Nat) → (Nat → Nat) → ScanResS
  | [], dist => ⟨dist, [], 0, true⟩
  | e :: es, dist =>
    let r := relaxEdgeSet dist (dist v) e
    let rest := setScan v es r.dist
    ⟨rest.dist, r.pushes ++ rest.pushes, r.bad + rest.bad, r.ok && rest.ok⟩

/-- State of the vertex-request worklist system. -/
structure SState where
  dist : Nat → Nat
  wl : List Nat
  badW : Nat
  ok : Bool

/-- A push into the (possibly work-set-filtered) scheduler: with a
work-set (`MSet`, `HSet`, `OSet`) a push of a vertex already queued is
dropped silently; without one the duplicate is queued. -/
def spush (useSet : Bool) (wl : List Nat) (v : Nat) : List Nat :=
  if useSet ∧ v ∈ wl then wl else wl ++ [v]

/-- One step of the vertex-request system: pop the vertex picked by the
schedule entry (a work-set removes the vertex from the set before the
edges are relaxed, which the pop models) and blindly relax its edges. -/
def sstep (g : Graph) (useSet : Bool) (s : SState) (i : Nat) : SState :=
  match s.wl[i]? with
  | none => s
  | some v =>
    let r := setScan v (g.adj v) s.dist
    ⟨r.dist, r.pushes.foldl (spush useSet) (s.wl.eraseIdx i),
     s.badW + r.bad, s.ok && r.ok⟩

/-- Run the vertex-request system under a schedule. -/
def srun (g : Graph) (useSet : Bool) : List Nat → SState → SState
  | [], s => s
  | i :: sch, s => srun g useSet sch (sstep g useSet s i)

/-- The state after the driver initialization of `AsyncSetAlgo` (lines
535-540): distances all `INF`, `dist[source] = 0`, out-edges of `source`
relaxed into the initial bag, and the bag fed through the scheduler push
(which drops duplicates when a work-set is configured). -/
def sinit (g : Graph) (useSet : Bool) (source : Nat) : SState :=
  let r := setScan source (g.adj source)
    (fun v => if v = source then 0 else INF)
  ⟨r.dist, r.pushes.foldl (spush useSet) [], r.bad, r.ok⟩

/-! ## SerialAlgo (lines 254-303) -/

/-- Modelled from the spec: `UpdateRequestCommon` and the `std::less`
order its `std::set` uses live in SSSP.h, which is not under src/; the
spec presents the serial baseline as Dijkstra-like, always popping the
smallest proposed distance, so requests `(n, w)` are ordered by `w` and
then by `n`.  `reqBefore a b` says `a` is strictly ordered before `b`. -/
def reqBefore (a b : Nat × Nat) : Bool :=
  decide (a.2 < b.2) || (decide (a.2 = b.2) && decide (a.1 < b.1))

/-- Ordered insertion into the serial algorithm's `std::set`, kept as a
sorted list: an element equal to one already present is not inserted. -/
def sinsert (x : Nat × Nat) : List (Nat × Nat) → List (Nat × Nat)
  | [] => [x]
  | y :: ys =>
    if reqBefore x y then x :: y :: ys
    else if x = y then y :: ys
    else y :: sinsert x ys

/-- The edge loop of `SerialAlgo::operator()` (lines 289-299): for each
out-edge of the popped request compute `newDist = req.w + d` in 32 bits
and insert a request for the destination when it strictly improves the
destination distance.  Returns the new queue and the no-wrap observation
for the sums this loop computed. -/
def serialScan (w : Nat) (dist : Nat → Nat) :
    List (Nat × Nat) → List (Nat × Nat) → List (Nat × Nat) × Bool
  | [], pq => (pq, true)
  | e :: es, pq =>
    let pq1 := if (w + e.2) % M32 < dist e.1 then sinsert (e.1, (w + e.2) % M32) pq else pq
    let rest := serialScan w dist es pq1
    (rest.1, decide (w + e.2 < M32) && rest.2)

/-- State of the serial baseline: the distance map, the ordered request
set (head = smallest), and the accumulated no-wrap observation. -/
structure SerState where
  dist : Nat → Nat
  pq : List (Nat × Nat)
  ok : Bool

/-- One iteration of the serial while-loop (lines 282-301): pop the
smallest request; if it improves its vertex, write the distance and scan
the out-edges; otherwise drop it. -/
def serialStep (g : Graph) (s : SerState) : SerState :=
  match s.pq with
  | [] => s
  | req :: rest =>
    if req.2 < s.dist req.1 then
      let dist1 : Nat → Nat := fun x => if x = req.1 then req.2 else s.dist x
      let r := serialScan req.2 dist1 (g.adj req.1) rest
      ⟨dist1, r.1, s.ok && r.2⟩
    else ⟨s.dist, rest, s.ok⟩

/-- Run the serial while-loop for `fuel` iterations (an iteration on an
empty set is a no-op); a completed run is one whose final set is empty. -/
def serialRun (g : Graph) : Nat → SerState → SerState
  | 0, s => s
  | fuel + 1, s => serialRun g fuel (serialStep g s)

/-- The serial initial state (lines 266-278): `SerialAlgo::Initialize`
sets every distance to `INF` and the set starts as `{(source, 0)}`. -/
def serialInit (source : Nat) : SerState :=
  ⟨fun _ => INF, [(source, 0)], true⟩

/-! ## AsyncAlgoPP: push-pull operator (lines 586-694) -/

/-- Result of a push-pull edge relaxation or scan: the distance map, the
updated local copy `sdist` of the source distance, the pushes and the
`BadWork` increment. -/
structure PPScanRes where
  dist : Nat → Nat
  sdist : Nat
  pushes : List (Nat × Nat)
  bad : Nat

/-- `AsyncAlgoPP::relaxEdge` (lines 611-630), sequentialized: on a
successful relax, push; otherwise fold the pull
`sdata = min(oldDist + d, sdata)` into the local source distance (the
sum again taken in 32 bits). -/
def relaxEdgePP (dist : Nat → Nat) (sdist : Nat) (e : Nat × Nat) : PPScanRes :=
  if (sdist + e.2) % M32 < dist e.1 then
    ⟨fun x => if x = e.1 then (sdist + e.2) % M32 else dist x, sdist,
     [(e.1, (sdist + e.2) % M32)],
     if dist e.1 ≠ INF then 1 else 0⟩
  else
    ⟨dist, min ((dist e.1 + e.2) % M32) sdist, [], 0⟩

/-- The edge loop of `AsyncAlgoPP::Process::operator()` (lines 649-651),
threading both the distance map and the local `sdist`. -/
def ppScan : List (Nat × Nat) → (Nat → Nat) → Nat → PPScanRes
  | [], dist, sdist => ⟨dist, sdist, [], 0⟩
  | e :: es, dist, sdist =>
    let r := relaxEdgePP dist sdist e
    let rest := ppScan es r.dist r.sdist
    ⟨rest.dist, rest.sdist, r.pushes ++ rest.pushes, r.bad + rest.bad⟩

/-- Result of one push-pull operator application, exposing the final
local `sdist` the operator computed. -/
structure PPNodeRes where
  dist : Nat → Nat
  sdist : Nat
  pushes : List (Nat × Nat)
  emptyW : Nat
  bad : Nat

/-- `AsyncAlgoPP::Process::operator()` (lines 637-661): empty-work gate,
then the push-pull edge scan.  The trailing pull-then-recurse write-back
of `sdist` into `dist[req.n]` is commented out in the source (lines
653-660), so the operator returns right after the scan and the improved
`sdist` is discarded. -/
def ppProcess (g : Graph) (dist : Nat → Nat) (req : Nat × Nat) : PPNodeRes :=
  if req.2 ≠ dist req.1 then ⟨dist, dist req.1, [], 1, 0⟩
  else
    let r := ppScan (g.adj req.1) dist (dist req.1)
    ⟨r.dist, r.sdist, r.pushes, 0, r.bad⟩

/-! ## Driver checks and verifier (lines 126-238) -/

/-- The configuration check of `initialize` (lines 224-230): the run
aborts unless both `startNode` and `reportNode` are inside the node
range.  The `delta` command-line value is passed along to document that
this check never reads it. -/
def initPass (n startN reportN : Nat) (delta : Int) : Bool :=
  !(decide (startN ≥ n) || decide (reportN ≥ n))

/-- The driver `run` (lines 704-740) up to the end of the worklist phase,
for the request-carrying algorithm: `initialize` runs first and aborts
(`none`) on a bad configuration, before any distance is allocated or
written; otherwise the distances are initialized, the frontier seeded and
the worklist run. -/
def runModel (g : Graph) (startN reportN : Nat) (delta : Int)
    (sch : List Nat) : Option AState :=
  if initPass g.n startN reportN delta then some (arun g sch (ainit g startN))
  else none

/-- `not_visited` (lines 126-135): a node is unvisited when its distance
is at least `DIST_INFINITY`. -/
def not_visited (dist : Nat → Nat) (v : Nat) : Bool :=
  decide (INF ≤ dist v)

/-- `not_consistent` (lines 144-164): a visited node is inconsistent when
some out-edge could still relax, the comparison `ddist > dist + w` taken
in 32 bits. -/
def not_consistent (g : Graph) (dist : Nat → Nat) (v : Nat) : Bool :=
  if dist v = INF then false
  else (g.adj v).any fun e => decide ((dist v + e.2) % M32 < dist e.1)

/-- `verify` (lines 189-213): fail when the source distance is nonzero;
count the unvisited nodes (a warning only, the count does not influence
the result); fail when some node is inconsistent; otherwise succeed. -/
def verify (g : Graph) (source : Nat) (dist : Nat → Nat) : Bool :=
  if dist source ≠ 0 then false
  else
    let _notVisited :=
      ((List.range g.n).filter fun v => not_visited dist v).length
    let consistent := (List.range g.n).all fun v => !(not_consistent g dist v)
    if !consistent then false else true

/-! ## dist-graph-convert helpers -/

/-- Modelled from the spec: `GALOIS_ASSERT` is Galois framework code not
under src/; its call sites pass an error message, and a failed assertion
reports and aborts the process, modelled as a guard that turns the rest
of the computation into `none`. -/
def galoisAssert {α : Type} (cond : Bool) (k : Option α) : Option α :=
  if cond then k else none

/-- `getNumEdges` (dist-graph-convert-helpers.h lines 69-78): an edge
vector stores 2 elements per edge for void edge data and 3 otherwise;
`hasData` stands for `EdgeDataTy` not being `void`. -/
def getNumEdges (hasData : Bool) (edgeVector : List Nat) : Nat :=
  if hasData then edgeVector.length / 3 else edgeVector.length / 2

/-- `loadEdgesFromEdgeList` (lines 93-136): the byte-delimited text
stream is abstracted to the list of (src, dst, data) records the read
loop extracts; each record's vertex ids are asserted below
`totalNumNodes` and appended to the flat vector, followed by the data
element when the edge-data type is not void. -/
def loadEdgesFromEdgeList (hasData : Bool) (totalNumNodes : Nat) :
    List (Nat × Nat × Nat) → Option (List Nat)
  | [] => some []
  | r :: rest =>
    galoisAssert (decide (r.1 < totalNumNodes)) <|
    galoisAssert (decide (r.2.1 < totalNumNodes)) <|
    match loadEdgesFromEdgeList hasData totalNumNodes rest with
    | none => none
    | some tail =>
      some (r.1 :: r.2.1 :: (if hasData then r.2.2 :: tail else tail))

/-! ## Specification-side notions -/

/-- A walk from `s` to a vertex together with its total weight, over the
out-adjacency structure of `g`; weights add in plain `Nat`. -/
inductive Walk (g : Graph) (s : Nat) : Nat → Nat → Prop where
  | nil : Walk g s s 0
  | cons : ∀ {v u w L}, Walk g s v L → (u, w) ∈ g.adj v → Walk g s u (L + w)

/-- The relaxation-closure property of a distance map (invariant 2 of the
spec), with plain `Nat` addition. -/
def Closed (g : Graph) (dist : Nat → Nat) : Prop :=
  ∀ u, dist u ≠ INF → ∀ e ∈ g.adj u, dist e.1 ≤ dist u + e.2

/-- Soundness of a distance map: every value is at most `INF` and every
finite value is realized by a walk from the source. -/
def SoundDist (g : Graph) (source : Nat) (dist : Nat → Nat) : Prop :=
  ∀ x, dist x ≤ INF ∧ (dist x ≠ INF → Walk g source x (dist x))

/-- Inductive invariant of the request-carrying system: the source is
pinned at 0; distances are sound; every queued request carries the walk
length it was pushed with; and every relaxable edge has a fresh request
for its source vertex still queued. -/
def AInv (g : Graph) (source : Nat) (s : AState) : Prop :=
  s.dist source = 0
  ∧ SoundDist g source s.dist
  ∧ (∀ p ∈ s.wl, Walk g source p.1 p.2 ∧ p.2 < INF)
  ∧ (∀ u, s.dist u ≠ INF → ∀ e ∈ g.adj u,
      s.dist e.1 ≤ s.dist u + e.2 ∨ (u, s.dist u) ∈ s.wl)

/-- Inductive invariant of the vertex-request system. -/
def SInv (g : Graph) (source : Nat) (s : SState) : Prop :=
  s.dist source = 0
  ∧ SoundDist g source s.dist
  ∧ (∀ u, s.dist u ≠ INF → ∀ e ∈ g.adj u,
      s.dist e.1 ≤ s.dist u + e.2 ∨ u ∈ s.wl)

/-- Inductive invariant of the serial baseline. -/
def SerInv (g : Graph) (source : Nat) (s : SerState) : Prop :=
  (s.dist source = 0 ∨ (source, 0) ∈ s.pq)
  ∧ SoundDist g source s.dist
  ∧ (∀ p ∈ s.pq, Walk g source p.1 p.2 ∧ p.2 < INF)
  ∧ (∀ u, s.dist u ≠ INF → ∀ e ∈ g.adj u,
      s.dist e.1 ≤ s.dist u + e.2
      ∨ ∃ w2, (e.1, w2) ∈ s.pq ∧ w2 ≤ s.dist u + e.2)

/-- The running minimum weight of the parallel edges from a list of
out-edges to a fixed destination (`INF` when there is none). -/
def minWeightTo (es : List (Nat × Nat)) (u : Nat) : Nat :=
  es.foldr (fun e acc => if e.1 = u then min e.2 acc else acc) INF

/-- Specification-side description of the initial bag: scanning the
source out-edges in order with a running best-distance map, an edge is a
strictly improving initial relaxation exactly when its weight beats the
best distance of its destination so far, and each such edge contributes
one request carrying its weight. -/
def specInitBag (best : Nat → Nat) : List (Nat × Nat) → List (Nat × Nat)
  | [] => []
  | e :: es =>
    if e.2 < best e.1 then
      (e.1, e.2) :: specInitBag (fun x => if x = e.1 then e.2 else best x) es
    else specInitBag best es

/-! ## Concrete instances used by witnesses and counterexamples -/

/-- A 3-vertex chain 0 to 1 (weight 2) to 2 (weight 3). -/
def gChain : Graph :=
  ⟨3, fun v => if v = 0 then [(1, 2)] else if v = 1 then [(2, 3)] else []⟩

/-- A 4-vertex graph whose edge 1 to 2 makes the 32-bit sum
`dist 1 + 10` wrap: 0 to 1 weighs `2^32 - 2`, 0 to 2 weighs 30,
0 to 3 weighs 5, 3 to 1 weighs 5, 1 to 2 weighs 10. -/
def gWrap : Graph :=
  ⟨4, fun v =>
    if v = 0 then [(1, 2 ^ 32 - 2), (2, 30), (3, 5)]
    else if v = 1 then [(2, 10)]
    else if v = 3 then [(1, 5)]
    else []⟩

/-- A single, edge-free vertex. -/
def gOne : Graph := ⟨1, fun _ => []⟩

/-- Parallel edges from the source: 0 to 1 with weights 5 and 3, and
0 to 2 with weight `INF`. -/
def gPar : Graph :=
  ⟨3, fun v => if v = 0 then [(1, 5), (1, 3), (2, 2 ^ 32 - 1)] else []⟩

/-- A 2-vertex graph with the single edge 0 to 1 of weight 2, and a
distance map where vertex 1 is much closer than vertex 0. -/
def gPull : Graph := ⟨2, fun v => if v = 0 then [(1, 2)] else []⟩

/-- Distance map for the pull counterexample: 10 at vertex 0, 1 at
vertex 1, `INF` elsewhere. -/
def dPull : Nat → Nat := fun v => if v = 0 then 10 else if v = 1 then 1 else INF

/-- A small distance map used by operator-level witnesses: 5 at vertex 1,
`INF` elsewhere. -/
def dWit : Nat → Nat := fun v => if v = 1 then 5 else INF

/-! ## List helpers -/

theorem mem_of_idx {α : Type} {l : List α} {i : Nat} {a : α}
    (h : l[i]? = some a) : a ∈ l := by
  induction l generalizing i with
  | nil => simp at h
  | cons b l ih =>
    cases i with
    | zero =>
      simp only [List.getElem?_cons_zero, Option.some.injEq] at h
      simp [h]
    | succ j =>
      simp only [List.getElem?_cons_succ] at h
      exact List.mem_cons_of_mem _ (ih h)

theorem mem_eraseIdx_of_ne {α : Type} {l : List α} {i : Nat} {x : α}
    (hx : x ∈ l) (hne : l[i]? ≠ some x) : x ∈ l.eraseIdx i := by
  induction l generalizing i with
  | nil => simp at hx
  | cons a l ih =>
    cases i with
    | zero =>
      simp only [List.getElem?_cons_zero] at hne
      rcases List.mem_cons.mp hx with h | h
      · exact absurd (by rw [h]) hne
      · simpa [List.eraseIdx] using h
    | succ j =>
      simp only [List.getElem?_cons_succ] at hne
      rcases List.mem_cons.mp hx with h | h
      · simp [List.eraseIdx, h]
      · exact List.mem_cons_of_mem _ (ih h hne)

theorem mem_of_mem_eraseIdx {α : Type} {l : List α} {i : Nat} {x : α}
    (hx : x ∈ l.eraseIdx i) : x ∈ l := by
  induction l generalizing i with
  | nil => simp [List.eraseIdx] at hx
  | cons a l ih =>
    cases i with
    | zero => exact List.mem_cons_of_mem _ (by simpa [List.eraseIdx] using hx)
    | succ j =>
      rcases List.mem_cons.mp (by simpa [List.eraseIdx] using hx) with h | h
      · simp [h]
      · exact List.mem_cons_of_mem _ (ih h)

theorem mem_foldl_spush_left (useSet : Bool) (x : Nat) (l : List Nat) :
    ∀ acc, x ∈ acc → x ∈ l.foldl (spush useSet) acc := by
  induction l with
  | nil => intro acc h; simpa using h
  | cons v l ih =>
    intro acc h
    simp only [List.foldl_cons]
    apply ih
    unfold spush
    split
    · exact h
    · exact List.mem_append_left _ h

theorem mem_foldl_spush_push (useSet : Bool) (x : Nat) (l : List Nat) :
    ∀ acc, x ∈ l → x ∈ l.foldl (spush useSet) acc := by
  induction l with
  | nil => intro acc h; simp at h
  | cons v l ih =>
    intro acc h
    simp only [List.foldl_cons]
    rcases List.mem_cons.mp h with h | h
    · subst h
      apply mem_foldl_spush_left
      unfold spush
      split
      · next hc => exact hc.2
      · exact List.mem_append_right _ (by simp)
    · exact ih _ h

theorem mem_sinsert_self (x : Nat × Nat) : ∀ l, x ∈ sinsert x l := by
  intro l
  induction l with
  | nil => simp [sinsert]
  | cons y ys ih =>
    unfold sinsert
    split
    · simp
    · split
      · next h => simp [h]
      · exact List.mem_cons_of_mem _ ih

theorem mem_sinsert_of_mem (x a : Nat × Nat) : ∀ l, a ∈ l → a ∈ sinsert x l := by
  intro l
  induction l with
  | nil => intro h; simp at h
  | cons y ys ih =>
    intro h
    unfold sinsert
    split
    · exact List.mem_cons_of_mem _ h
    · split
      · exact h
      · rcases List.mem_cons.mp h with h | h
        · simp [h]
        · exact List.mem_cons_of_mem _ (ih h)

/-! ## Arithmetic helpers -/

theorem INF_lt_M32 : INF < M32 := by
  unfold INF M32
  norm_num

theorem sum_eq_of_ok {a b : Nat} (h : decide (a + b < M32) = true) :
    (a + b) % M32 = a + b :=
  Nat.mod_eq_of_lt (of_decide_eq_true h)

/-! ## Edge relaxation: case lemmas -/

theorem relaxEdge_of_lt {dist : Nat → Nat} {sdist : Nat} {e : Nat × Nat}
    (h : (sdist + e.2) % M32 < dist e.1) :
    relaxEdge dist sdist e =
      ⟨fun x => if x = e.1 then (sdist + e.2) % M32 else dist x,
       [(e.1, (sdist + e.2) % M32)],
       if dist e.1 ≠ INF then 1 else 0,
       decide (sdist + e.2 < M32)⟩ := by
  simp [relaxEdge, h]

theorem relaxEdge_of_ge {dist : Nat → Nat} {sdist : Nat} {e : Nat × Nat}
    (h : ¬ (sdist + e.2) % M32 < dist e.1) :
    relaxEdge dist sdist e = ⟨dist, [], 0, decide (sdist + e.2 < M32)⟩ := by
  simp [relaxEdge, h]

theorem relaxEdgeSet_of_lt {dist : Nat → Nat} {sdist : Nat} {e : Nat × Nat}
    (h : (sdist + e.2) % M32 < dist e.1) :
    relaxEdgeSet dist sdist e =
      ⟨fun x => if x = e.1 then (sdist + e.2) % M32 else dist x,
       [e.1],
       if dist e.1 ≠ INF then 1 else 0,
       decide (sdist + e.2 < M32)⟩ := by
  simp [relaxEdgeSet, h]

theorem relaxEdgeSet_of_ge {dist : Nat → Nat} {sdist : Nat} {e : Nat × Nat}
    (h : ¬ (sdist + e.2) % M32 < dist e.1) :
    relaxEdgeSet dist sdist e = ⟨dist, [], 0, decide (sdist + e.2 < M32)⟩ := by
  simp [relaxEdgeSet, h]

/-! ## Scan unfolding lemmas -/

theorem setScan_cons_dist (v : Nat) (e : Nat × Nat) (es : List (Nat × Nat))
    (dist : Nat → Nat) :
    (setScan v (e :: es) dist).dist =
      (setScan v es (relaxEdgeSet dist (dist v) e).dist).dist := rfl

theorem setScan_cons_pushes (v : Nat) (e : Nat × Nat) (es : List (Nat × Nat))
    (dist : Nat → Nat) :
    (setScan v (e :: es) dist).pushes =
      (relaxEdgeSet dist (dist v) e).pushes
        ++ (setScan v es (relaxEdgeSet dist (dist v) e).dist).pushes := rfl

theorem setScan_cons_ok (v : Nat) (e : Nat × Nat) (es : List (Nat × Nat))
    (dist : Nat → Nat) :
    (setScan v (e :: es) dist).ok =
      ((relaxEdgeSet dist (dist v) e).ok
        && (setScan v es (relaxEdgeSet dist (dist v) e).dist).ok) := rfl

theorem initScan_cons_dist (v : Nat) (e : Nat × Nat) (es : List (Nat × Nat))
    (dist : Nat → Nat) :
    (initScan v (e :: es) dist).dist =
      (initScan v es (relaxEdge dist (dist v) e).dist).dist := rfl

theorem initScan_cons_pushes (v : Nat) (e : Nat × Nat) (es : List (Nat × Nat))
    (dist : Nat → Nat) :
    (initScan v (e :: es) dist).pushes =
      (relaxEdge dist (dist v) e).pushes
        ++ (initScan v es (relaxEdge dist (dist v) e).dist).pushes := rfl

theorem initScan_cons_ok (v : Nat) (e : Nat × Nat) (es : List (Nat × Nat))
    (dist : Nat → Nat) :
    (initScan v (e :: es) dist).ok =
      ((relaxEdge dist (dist v) e).ok
        && (initScan v es (relaxEdge dist (dist v) e).dist).ok) := rfl

theorem scanEdges_cons_pass {w v : Nat} {e : Nat × Nat} {es : List (Nat × Nat)}
    {dist : Nat → Nat} (h : w = dist v) :
    scanEdges w v (e :: es) dist =
      ⟨(scanEdges w v es (relaxEdge dist (dist v) e).dist).dist,
       (relaxEdge dist (dist v) e).pushes
         ++ (scanEdges w v es (relaxEdge dist (dist v) e).dist).pushes,
       (scanEdges w v es (relaxEdge dist (dist v) e).dist).emptyW,
       (relaxEdge dist (dist v) e).bad
         + (scanEdges w v es (relaxEdge dist (dist v) e).dist).bad,
       (relaxEdge dist (dist v) e).ok
         && (scanEdges w v es (relaxEdge dist (dist v) e).dist).ok⟩ := by
  simp only [scanEdges]
  rw [if_neg (by simp [h])]

theorem relaxEdge_ok (dist : Nat → Nat) (sdist : Nat) (e : Nat × Nat) :
    (relaxEdge dist sdist e).ok = decide (sdist + e.2 < M32) := by
  unfold relaxEdge
  split <;> rfl

theorem relaxEdgeSet_ok (dist : Nat → Nat) (sdist : Nat) (e : Nat × Nat) :
    (relaxEdgeSet dist sdist e).ok = decide (sdist + e.2 < M32) := by
  unfold relaxEdgeSet
  split <;> rfl

/-! ## Master lemma for the blind vertex-request scan -/

theorem setScan_facts (g : Graph) (source v : Nat) (es : List (Nat × Nat)) :
    ∀ dist : Nat → Nat,
      (setScan v es dist).ok = true →
      (∀ x, dist x ≤ INF) →
      (∀ x, dist x ≠ INF → Walk g source x (dist x)) →
      (∀ e ∈ es, e ∈ g.adj v) →
      (∀ x, (setScan v es dist).dist x ≤ dist x)
      ∧ (setScan v es dist).dist v = dist v
      ∧ (∀ x, (setScan v es dist).dist x ≤ INF)
      ∧ (∀ x, (setScan v es dist).dist x ≠ INF →
          Walk g source x ((setScan v es dist).dist x))
      ∧ (dist v ≠ INF → ∀ e ∈ es, (setScan v es dist).dist e.1 ≤ dist v + e.2)
      ∧ (∀ x, (setScan v es dist).dist x ≠ dist x →
          x ∈ (setScan v es dist).pushes) := by
  induction es with
  | nil =>
    intro dist _ hle hsound _
    refine ⟨fun x => le_refl _, rfl, hle, hsound, ?_, ?_⟩
    · intro _ e he
      simp at he
    · intro x hx
      exact absurd rfl hx
  | cons e es ih =>
    intro dist hok hle hsound hadj
    rw [setScan_cons_ok] at hok
    simp only [Bool.and_eq_true] at hok
    obtain ⟨hok1, hok2⟩ := hok
    rw [relaxEdgeSet_ok] at hok1
    have hsum : dist v + e.2 < M32 := of_decide_eq_true hok1
    have hnd : (dist v + e.2) % M32 = dist v + e.2 := Nat.mod_eq_of_lt hsum
    have heAdj : (e.1, e.2) ∈ g.adj v := by
      rw [Prod.mk.eta]
      exact hadj e (List.mem_cons_self e es)
    have hadj' : ∀ e' ∈ es, e' ∈ g.adj v :=
      fun e' he' => hadj e' (List.mem_cons_of_mem _ he')
    by_cases hrel : (dist v + e.2) % M32 < dist e.1
    · -- the edge relaxed: dist e.1 becomes the new sum, e.1 is pushed
      simp only [relaxEdgeSet_of_lt hrel, hnd] at hok2
      have hrel2 : dist v + e.2 < dist e.1 := by
        rw [← hnd]
        exact hrel
      have hndINF : dist v + e.2 < INF := lt_of_lt_of_le hrel2 (hle e.1)
      have hvninf : dist v ≠ INF := by
        have hself : dist v ≤ dist v + e.2 := Nat.le_add_right _ _
        omega
      have hvne1 : v ≠ e.1 := by
        intro hcon
        rw [← hcon] at hrel2
        omega
      have hgd : (setScan v (e :: es) dist).dist =
          (setScan v es (fun x => if x = e.1 then dist v + e.2 else dist x)).dist := by
        rw [setScan_cons_dist]
        simp only [relaxEdgeSet_of_lt hrel, hnd]
      have hgp : (setScan v (e :: es) dist).pushes =
          [e.1] ++ (setScan v es (fun x => if x = e.1 then dist v + e.2 else dist x)).pushes := by
        rw [setScan_cons_pushes]
        simp only [relaxEdgeSet_of_lt hrel, hnd]
      have hle' : ∀ x, (if x = e.1 then dist v + e.2 else dist x) ≤ INF := by
        intro x
        by_cases hx : x = e.1
        · simp only [if_pos hx]
          exact le_of_lt hndINF
        · simp only [if_neg hx]
          exact hle x
      have hsound' : ∀ x, (if x = e.1 then dist v + e.2 else dist x) ≠ INF →
          Walk g source x (if x = e.1 then dist v + e.2 else dist x) := by
        intro x hx
        by_cases hxe : x = e.1
        · subst hxe
          simp only [if_pos rfl]
          exact Walk.cons (hsound v hvninf) heAdj
        · simp only [if_neg hxe] at hx ⊢
          exact hsound x hx
      obtain ⟨ih1, ih2, ih3, ih4, ih5, ih6⟩ :=
        ih (fun x => if x = e.1 then dist v + e.2 else dist x) hok2 hle' hsound' hadj'
      have hupdv : (if v = e.1 then dist v + e.2 else dist v) = dist v := by
        simp [if_neg hvne1]
      refine ⟨?_, ?_, ?_, ?_, ?_, ?_⟩
      · intro x
        rw [hgd]
        refine le_trans (ih1 x) ?_
        by_cases hx : x = e.1
        · subst hx
          simp only [if_pos rfl]
          exact le_of_lt hrel2
        · simp [if_neg hx]
      · rw [hgd, ih2]
        exact hupdv
      · intro x
        rw [hgd]
        exact ih3 x
      · intro x
        rw [hgd]
        exact ih4 x
      · intro _ e' he'
        rw [hgd]
        rcases List.mem_cons.mp he' with he' | he'
        · subst he'
          refine le_trans (ih1 e'.1) ?_
          simp
        · have hv' : (if v = e.1 then dist v + e.2 else dist v) ≠ INF := by
            rw [hupdv]
            exact hvninf
          have := ih5 hv' e' he'
          rwa [hupdv] at this
      · intro x hx
        rw [hgd] at hx
        rw [hgp]
        by_cases hx2 : (setScan v es (fun x => if x = e.1 then dist v + e.2 else dist x)).dist x
            = (if x = e.1 then dist v + e.2 else dist x)
        · have hxe : x = e.1 := by
            by_contra hxe
            rw [hx2] at hx
            simp [if_neg hxe] at hx
          exact List.mem_append_left _ (by simp [hxe])
        · exact List.mem_append_right _ (ih6 x hx2)
    · -- no relaxation: the distance map is unchanged by this edge
      simp only [relaxEdgeSet_of_ge hrel] at hok2
      have hgd : (setScan v (e :: es) dist).dist = (setScan v es dist).dist := by
        rw [setScan_cons_dist]
        simp only [relaxEdgeSet_of_ge hrel]
      have hgp : (setScan v (e :: es) dist).pushes =
          [] ++ (setScan v es dist).pushes := by
        rw [setScan_cons_pushes]
        simp only [relaxEdgeSet_of_ge hrel]
      obtain ⟨ih1, ih2, ih3, ih4, ih5, ih6⟩ := ih dist hok2 hle hsound hadj'
      refine ⟨?_, ?_, ?_, ?_, ?_, ?_⟩
      · intro x
        rw [hgd]
        exact ih1 x
      · rw [hgd]
        exact ih2
      · intro x
        rw [hgd]
        exact ih3 x
      · intro x
        rw [hgd]
        exact ih4 x
      · intro hvninf e' he'
        rw [hgd]
        rcases List.mem_cons.mp he' with he' | he'
        · subst he'
          have hge : dist e'.1 ≤ dist v + e'.2 := by
            rw [hnd] at hrel
            omega
          exact le_trans (ih1 e'.1) hge
        · exact ih5 hvninf e' he'
      · intro x hx
        rw [hgd] at hx
        rw [hgp]
        exact List.mem_append_right _ (ih6 x hx)

/-! ## Master lemma for the gated request-carrying scan -/

theorem scanEdges_facts (g : Graph) (source v w : Nat) (es : List (Nat × Nat)) :
    ∀ dist : Nat → Nat,
      (scanEdges w v es dist).ok = true →
      dist v = w →
      Walk g source v w →
      (∀ x, dist x ≤ INF) →
      (∀ x, dist x ≠ INF → Walk g source x (dist x)) →
      (∀ e ∈ es, e ∈ g.adj v) →
      (∀ x, (scanEdges w v es dist).dist x ≤ dist x)
      ∧ (scanEdges w v es dist).dist v = w
      ∧ (∀ x, (scanEdges w v es dist).dist x ≤ INF)
      ∧ (∀ x, (scanEdges w v es dist).dist x ≠ INF →
          Walk g source x ((scanEdges w v es dist).dist x))
      ∧ (∀ e ∈ es, (scanEdges w v es dist).dist e.1 ≤ w + e.2)
      ∧ (∀ p ∈ (scanEdges w v es dist).pushes,
          Walk g source p.1 p.2 ∧ p.2 < INF ∧ (scanEdges w v es dist).dist p.1 ≤ p.2)
      ∧ (∀ x, (scanEdges w v es dist).dist x ≠ dist x →
          (x, (scanEdges w v es dist).dist x) ∈ (scanEdges w v es dist).pushes) := by
  induction es with
  | nil =>
    intro dist _ hdv hWv hle hsound _
    refine ⟨fun x => le_refl _, hdv, hle, hsound, ?_, ?_, ?_⟩
    · intro e he
      simp at he
    · intro p hp
      simp [scanEdges] at hp
    · intro x hx
      exact absurd rfl hx
  | cons e es ih =>
    intro dist hok hdv hWv hle hsound hadj
    rw [scanEdges_cons_pass hdv.symm] at hok
    simp only [Bool.and_eq_true] at hok
    obtain ⟨hok1, hok2⟩ := hok
    rw [relaxEdge_ok] at hok1
    rw [hdv] at hok1
    have hsum : w + e.2 < M32 := of_decide_eq_true hok1
    have hnd : (w + e.2) % M32 = w + e.2 := Nat.mod_eq_of_lt hsum
    have heAdj : (e.1, e.2) ∈ g.adj v := by
      rw [Prod.mk.eta]
      exact hadj e (List.mem_cons_self e es)
    have hadj' : ∀ e' ∈ es, e' ∈ g.adj v :=
      fun e' he' => hadj e' (List.mem_cons_of_mem _ he')
    by_cases hrel : (w + e.2) % M32 < dist e.1
    · -- the edge relaxed
      have hrel2 : w + e.2 < dist e.1 := by
        rw [← hnd]
        exact hrel
      simp only [hdv, relaxEdge_of_lt hrel, hnd] at hok2
      have hndINF : w + e.2 < INF := lt_of_lt_of_le hrel2 (hle e.1)
      have hvne1 : v ≠ e.1 := by
        intro hcon
        rw [← hcon, hdv] at hrel2
        omega
      have hgd : (scanEdges w v (e :: es) dist).dist =
          (scanEdges w v es (fun x => if x = e.1 then w + e.2 else dist x)).dist := by
        rw [scanEdges_cons_pass hdv.symm]
        simp only [hdv, relaxEdge_of_lt hrel, hnd]
      have hgp : (scanEdges w v (e :: es) dist).pushes =
          [(e.1, w + e.2)]
            ++ (scanEdges w v es (fun x => if x = e.1 then w + e.2 else dist x)).pushes := by
        rw [scanEdges_cons_pass hdv.symm]
        simp only [hdv, relaxEdge_of_lt hrel, hnd]
      have hdv' : (if v = e.1 then w + e.2 else dist v) = w := by
        rw [if_neg hvne1]
        exact hdv
      have hle' : ∀ x, (if x = e.1 then w + e.2 else dist x) ≤ INF := by
        intro x
        by_cases hx : x = e.1
        · simp only [if_pos hx]
          exact le_of_lt hndINF
        · simp only [if_neg hx]
          exact hle x
      have hsound' : ∀ x, (if x = e.1 then w + e.2 else dist x) ≠ INF →
          Walk g source x (if x = e.1 then w + e.2 else dist x) := by
        intro x hx
        by_cases hxe : x = e.1
        · subst hxe
          simp only [if_pos rfl]
          exact Walk.cons hWv heAdj
        · simp only [if_neg hxe] at hx ⊢
          exact hsound x hx
      obtain ⟨ih1, ih2, ih3, ih4, ih5, ih6, ih7⟩ :=
        ih (fun x => if x = e.1 then w + e.2 else dist x) hok2 hdv' hWv hle' hsound' hadj'
      refine ⟨?_, ?_, ?_, ?_, ?_, ?_, ?_⟩
      · intro x
        rw [hgd]
        refine le_trans (ih1 x) ?_
        by_cases hx : x = e.1
        · subst hx
          simp only [if_pos rfl]
          exact le_of_lt hrel2
        · simp [if_neg hx]
      · rw [hgd]
        exact ih2
      · intro x
        rw [hgd]
        exact ih3 x
      · intro x
        rw [hgd]
        exact ih4 x
      · intro e' he'
        rw [hgd]
        rcases List.mem_cons.mp he' with he' | he'
        · subst he'
          refine le_trans (ih1 e'.1) ?_
          simp
        · exact ih5 e' he'
      · intro p hp
        rw [hgp] at hp
        rw [hgd]
        rcases List.mem_append.mp hp with hp | hp
        · have hpe : p = (e.1, w + e.2) := by simpa using hp
          subst hpe
          refine ⟨Walk.cons hWv heAdj, hndINF, ?_⟩
          refine le_trans (ih1 e.1) ?_
          simp
        · exact ih6 p hp
      · intro x hx
        rw [hgd] at hx
        rw [hgd, hgp]
        by_cases hx2 : (scanEdges w v es (fun x => if x = e.1 then w + e.2 else dist x)).dist x
            = (if x = e.1 then w + e.2 else dist x)
        · have hxe : x = e.1 := by
            by_contra hxe
            rw [hx2] at hx
            simp [if_neg hxe] at hx
          subst hxe
          rw [hx2]
          simp
        · exact List.mem_append_right _ (ih7 x hx2)
    · -- no relaxation
      simp only [hdv, relaxEdge_of_ge hrel] at hok2
      have hgd : (scanEdges w v (e :: es) dist).dist = (scanEdges w v es dist).dist := by
        rw [scanEdges_cons_pass hdv.symm]
        simp only [hdv, relaxEdge_of_ge hrel]
      have hgp : (scanEdges w v (e :: es) dist).pushes =
          [] ++ (scanEdges w v es dist).pushes := by
        rw [scanEdges_cons_pass hdv.symm]
        simp only [hdv, relaxEdge_of_ge hrel]
      obtain ⟨ih1, ih2, ih3, ih4, ih5, ih6, ih7⟩ :=
        ih dist hok2 hdv hWv hle hsound hadj'
      refine ⟨?_, ?_, ?_, ?_, ?_, ?_, ?_⟩
      · intro x
        rw [hgd]
        exact ih1 x
      · rw [hgd]
        exact ih2
      · intro x
        rw [hgd]
        exact ih3 x
      · intro x
        rw [hgd]
        exact ih4 x
      · intro e' he'
        rw [hgd]
        rcases List.mem_cons.mp he' with he' | he'
        · subst he'
          have hge : dist e'.1 ≤ w + e'.2 := by
            rw [hnd] at hrel
            omega
          exact le_trans (ih1 e'.1) hge
        · exact ih5 e' he'
      · intro p hp
        rw [hgp] at hp
        rw [hgd]
        exact ih6 p (by simpa using hp)
      · intro x hx
        rw [hgd] at hx
        rw [hgd, hgp]
        exact List.mem_append_right _ (ih7 x hx)

/-! ## Master lemma for the initial-frontier scan -/

theorem initScan_facts (g : Graph) (source v w : Nat) (es : List (Nat × Nat)) :
    ∀ dist : Nat → Nat,
      (initScan v es dist).ok = true →
      dist v = w →
      Walk g source v w →
      (∀ x, dist x ≤ INF) →
      (∀ x, dist x ≠ INF → Walk g source x (dist x)) →
      (∀ e ∈ es, e ∈ g.adj v) →
      (∀ x, (initScan v es dist).dist x ≤ dist x)
      ∧ (initScan v es dist).dist v = w
      ∧ (∀ x, (initScan v es dist).dist x ≤ INF)
      ∧ (∀ x, (initScan v es dist).dist x ≠ INF →
          Walk g source x ((initScan v es dist).dist x))
      ∧ (∀ e ∈ es, (initScan v es dist).dist e.1 ≤ w + e.2)
      ∧ (∀ p ∈ (initScan v es dist).pushes,
          Walk g source p.1 p.2 ∧ p.2 < INF ∧ (initScan v es dist).dist p.1 ≤ p.2)
      ∧ (∀ x, (initScan v es dist).dist x ≠ dist x →
          (x, (initScan v es dist).dist x) ∈ (initScan v es dist).pushes) := by
  induction es with
  | nil =>
    intro dist _ hdv hWv hle hsound _
    refine ⟨fun x => le_refl _, hdv, hle, hsound, ?_, ?_, ?_⟩
    · intro e he
      simp at he
    · intro p hp
      simp [initScan] at hp
    · intro x hx
      exact absurd rfl hx
  | cons e es ih =>
    intro dist hok hdv hWv hle hsound hadj
    rw [initScan_cons_ok] at hok
    simp only [Bool.and_eq_true] at hok
    obtain ⟨hok1, hok2⟩ := hok
    rw [relaxEdge_ok] at hok1
    rw [hdv] at hok1
    have hsum : w + e.2 < M32 := of_decide_eq_true hok1
    have hnd : (w + e.2) % M32 = w + e.2 := Nat.mod_eq_of_lt hsum
    have heAdj : (e.1, e.2) ∈ g.adj v := by
      rw [Prod.mk.eta]
      exact hadj e (List.mem_cons_self e es)
    have hadj' : ∀ e' ∈ es, e' ∈ g.adj v :=
      fun e' he' => hadj e' (List.mem_cons_of_mem _ he')
    by_cases hrel : (w + e.2) % M32 < dist e.1
    · -- the edge relaxed
      have hrel2 : w + e.2 < dist e.1 := by
        rw [← hnd]
        exact hrel
      simp only [hdv, relaxEdge_of_lt hrel, hnd] at hok2
      have hndINF : w + e.2 < INF := lt_of_lt_of_le hrel2 (hle e.1)
      have hvne1 : v ≠ e.1 := by
        intro hcon
        rw [← hcon, hdv] at hrel2
        omega
      have hgd : (initScan v (e :: es) dist).dist =
          (initScan v es (fun x => if x = e.1 then w + e.2 else dist x)).dist := by
        rw [initScan_cons_dist]
        simp only [hdv, relaxEdge_of_lt hrel, hnd]
      have hgp : (initScan v (e :: es) dist).pushes =
          [(e.1, w + e.2)]
            ++ (initScan v es (fun x => if x = e.1 then w + e.2 else dist x)).pushes := by
        rw [initScan_cons_pushes]
        simp only [hdv, relaxEdge_of_lt hrel, hnd]
      have hdv' : (if v = e.1 then w + e.2 else dist v) = w := by
        rw [if_neg hvne1]
        exact hdv
      have hle' : ∀ x, (if x = e.1 then w + e.2 else dist x) ≤ INF := by
        intro x
        by_cases hx : x = e.1
        · simp only [if_pos hx]
          exact le_of_lt hndINF
        · simp only [if_neg hx]
          exact hle x
      have hsound' : ∀ x, (if x = e.1 then w + e.2 else dist x) ≠ INF →
          Walk g source x (if x = e.1 then w + e.2 else dist x) := by
        intro x hx
        by_cases hxe : x = e.1
        · subst hxe
          simp only [if_pos rfl]
          exact Walk.cons hWv heAdj
        · simp only [if_neg hxe] at hx ⊢
          exact hsound x hx
      obtain ⟨ih1, ih2, ih3, ih4, ih5, ih6, ih7⟩ :=
        ih (fun x => if x = e.1 then w + e.2 else dist x) hok2 hdv' hWv hle' hsound' hadj'
      refine ⟨?_, ?_, ?_, ?_, ?_, ?_, ?_⟩
      · intro x
        rw [hgd]
        refine le_trans (ih1 x) ?_
        by_cases hx : x = e.1
        · subst hx
          simp only [if_pos rfl]
          exact le_of_lt hrel2
        · simp [if_neg hx]
      · rw [hgd]
        exact ih2
      · intro x
        rw [hgd]
        exact ih3 x
      · intro x
        rw [hgd]
        exact ih4 x
      · intro e' he'
        rw [hgd]
        rcases List.mem_cons.mp he' with he' | he'
        · subst he'
          refine le_trans (ih1 e'.1) ?_
          simp
        · exact ih5 e' he'
      · intro p hp
        rw [hgp] at hp
        rw [hgd]
        rcases List.mem_append.mp hp with hp | hp
        · have hpe : p = (e.1, w + e.2) := by simpa using hp
          subst hpe
          refine ⟨Walk.cons hWv heAdj, hndINF, ?_⟩
          refine le_trans (ih1 e.1) ?_
          simp
        · exact ih6 p hp
      · intro x hx
        rw [hgd] at hx
        rw [hgd, hgp]
        by_cases hx2 : (initScan v es (fun x => if x = e.1 then w + e.2 else dist x)).dist x
            = (if x = e.1 then w + e.2 else dist x)
        · have hxe : x = e.1 := by
            by_contra hxe
            rw [hx2] at hx
            simp [if_neg hxe] at hx
          subst hxe
          rw [hx2]
          simp
        · exact List.mem_append_right _ (ih7 x hx2)
    · -- no relaxation
      simp only [hdv, relaxEdge_of_ge hrel] at hok2
      have hgd : (initScan v (e :: es) dist).dist = (initScan v es dist).dist := by
        rw [initScan_cons_dist]
        simp only [hdv, relaxEdge_of_ge hrel]
      have hgp : (initScan v (e :: es) dist).pushes =
          [] ++ (initScan v es dist).pushes := by
        rw [initScan_cons_pushes]
        simp only [hdv, relaxEdge_of_ge hrel]
      obtain ⟨ih1, ih2, ih3, ih4, ih5, ih6, ih7⟩ :=
        ih dist hok2 hdv hWv hle hsound hadj'
      refine ⟨?_, ?_, ?_, ?_, ?_, ?_, ?_⟩
      · intro x
        rw [hgd]
        exact ih1 x
      · rw [hgd]
        exact ih2
      · intro x
        rw [hgd]
        exact ih3 x
      · intro x
        rw [hgd]
        exact ih4 x
      · intro e' he'
        rw [hgd]
        rcases List.mem_cons.mp he' with he' | he'
        · subst he'
          have hge : dist e'.1 ≤ w + e'.2 := by
            rw [hnd] at hrel
            omega
          exact le_trans (ih1 e'.1) hge
        · exact ih5 e' he'
      · intro p hp
        rw [hgp] at hp
        rw [hgd]
        exact ih6 p (by simpa using hp)
      · intro x hx
        rw [hgd] at hx
        rw [hgd, hgp]
        exact List.mem_append_right _ (ih7 x hx)

/-! ## Request-carrying system: invariant preservation -/

theorem astep_none {g : Graph} {s : AState} {i : Nat} (h : s.wl[i]? = none) :
    astep g s i = s := by
  unfold astep
  rw [h]

theorem astep_some {g : Graph} {s : AState} {i : Nat} {req : Nat × Nat}
    (h : s.wl[i]? = some req) :
    astep g s i =
      ⟨(relaxNode g s.dist req).dist,
       s.wl.eraseIdx i ++ (relaxNode g s.dist req).pushes,
       s.emptyW + (relaxNode g s.dist req).emptyW,
       s.badW + (relaxNode g s.dist req).bad,
       s.ok && (relaxNode g s.dist req).ok⟩ := by
  unfold astep
  rw [h]

theorem relaxNode_stale {g : Graph} {dist : Nat → Nat} {req : Nat × Nat}
    (h : req.2 ≠ dist req.1) :
    relaxNode g dist req = ⟨dist, [], 1, 0, true⟩ := by
  unfold relaxNode
  rw [if_pos h]

theorem relaxNode_fresh {g : Graph} {dist : Nat → Nat} {req : Nat × Nat}
    (h : req.2 = dist req.1) :
    relaxNode g dist req = scanEdges req.2 req.1 (g.adj req.1) dist := by
  unfold relaxNode
  rw [if_neg (by simp [h])]

theorem astep_inv (g : Graph) (source : Nat) (s : AState) (i : Nat)
    (hI : AInv g source s) (hok : (astep g s i).ok = true) :
    AInv g source (astep g s i) := by
  obtain ⟨h0, hsd, hwl, hK⟩ := hI
  cases hidx : s.wl[i]? with
  | none =>
    rw [astep_none hidx]
    exact ⟨h0, hsd, hwl, hK⟩
  | some req =>
    by_cases hg : req.2 = s.dist req.1
    · -- fresh request: the full edge scan runs
      have hd : (astep g s i).dist =
          (scanEdges req.2 req.1 (g.adj req.1) s.dist).dist := by
        rw [astep_some hidx, relaxNode_fresh hg]
      have hw : (astep g s i).wl =
          s.wl.eraseIdx i ++ (scanEdges req.2 req.1 (g.adj req.1) s.dist).pushes := by
        rw [astep_some hidx, relaxNode_fresh hg]
      have hok2 : (scanEdges req.2 req.1 (g.adj req.1) s.dist).ok = true := by
        rw [astep_some hidx, relaxNode_fresh hg] at hok
        simp only [Bool.and_eq_true] at hok
        exact hok.2
      have hWreq := hwl req (mem_of_idx hidx)
      obtain ⟨f1, f2, f3, f4, f5, f6, f7⟩ :=
        scanEdges_facts g source req.1 req.2 (g.adj req.1) s.dist hok2 hg.symm hWreq.1
          (fun x => (hsd x).1) (fun x => (hsd x).2) (fun e he => he)
      unfold AInv
      rw [hd, hw]
      refine ⟨?_, ?_, ?_, ?_⟩
      · have hle0 := f1 source
        rw [h0] at hle0
        exact Nat.le_zero.mp hle0
      · intro x
        exact ⟨f3 x, f4 x⟩
      · intro p hp
        rcases List.mem_append.mp hp with hp | hp
        · exact hwl p (mem_of_mem_eraseIdx hp)
        · obtain ⟨hWp, hpinf, _⟩ := f6 p hp
          exact ⟨hWp, hpinf⟩
      · intro u hu e he
        by_cases hch : (scanEdges req.2 req.1 (g.adj req.1) s.dist).dist u = s.dist u
        · by_cases huv : u = req.1
          · subst huv
            left
            rw [f2]
            exact f5 e he
          · have hu' : s.dist u ≠ INF := by
              rw [← hch]
              exact hu
            rcases hK u hu' e he with hsat | hwit
            · left
              calc (scanEdges req.2 req.1 (g.adj req.1) s.dist).dist e.1
                  ≤ s.dist e.1 := f1 e.1
                _ ≤ s.dist u + e.2 := hsat
                _ = (scanEdges req.2 req.1 (g.adj req.1) s.dist).dist u + e.2 := by
                    rw [hch]
            · right
              rw [hch]
              apply List.mem_append_left
              apply mem_eraseIdx_of_ne hwit
              rw [hidx]
              intro hcon
              apply huv
              have hreq : req = (u, s.dist u) := by injection hcon
              rw [hreq]
        · right
          exact List.mem_append_right _ (f7 u hch)
    · -- stale request: empty work, nothing changes
      have hd : (astep g s i).dist = s.dist := by
        rw [astep_some hidx, relaxNode_stale hg]
      have hw : (astep g s i).wl = s.wl.eraseIdx i := by
        rw [astep_some hidx, relaxNode_stale hg]
        simp
      unfold AInv
      rw [hd, hw]
      refine ⟨h0, hsd, ?_, ?_⟩
      · intro p hp
        exact hwl p (mem_of_mem_eraseIdx hp)
      · intro u hu e he
        rcases hK u hu e he with hsat | hwit
        · left
          exact hsat
        · right
          apply mem_eraseIdx_of_ne hwit
          rw [hidx]
          intro hcon
          have hreq : req = (u, s.dist u) := by injection hcon
          apply hg
          rw [hreq]

theorem arun_ok (g : Graph) (sch : List Nat) :
    ∀ s : AState, (arun g sch s).ok = true → s.ok = true := by
  induction sch with
  | nil =>
    intro s h
    exact h
  | cons i sch ih =>
    intro s h
    have hstep := ih (astep g s i) h
    cases hidx : s.wl[i]? with
    | none =>
      rw [astep_none hidx] at hstep
      exact hstep
    | some req =>
      rw [astep_some hidx] at hstep
      simp only [Bool.and_eq_true] at hstep
      exact hstep.1

theorem arun_inv (g : Graph) (source : Nat) (sch : List Nat) :
    ∀ s : AState, AInv g source s → (arun g sch s).ok = true →
      AInv g source (arun g sch s) := by
  induction sch with
  | nil =>
    intro s hI _
    exact hI
  | cons i sch ih =>
    intro s hI hok
    exact ih (astep g s i) (astep_inv g source s i hI (arun_ok g sch _ hok)) hok

theorem ainit_inv (g : Graph) (source : Nat)
    (hok : (ainit g source).ok = true) :
    AInv g source (ainit g source) := by
  have hok' : (initScan source (g.adj source)
      (fun v => if v = source then 0 else INF)).ok = true := hok
  have hdv : (fun v : Nat => if v = source then 0 else INF) source = 0 := by simp
  have hle : ∀ x, (fun v : Nat => if v = source then 0 else INF) x ≤ INF := by
    intro x
    by_cases hx : x = source <;> simp [hx]
  have hsound : ∀ x, (fun v : Nat => if v = source then 0 else INF) x ≠ INF →
      Walk g source x ((fun v : Nat => if v = source then 0 else INF) x) := by
    intro x hx
    by_cases hxs : x = source
    · subst hxs
      simp only [if_pos rfl]
      exact Walk.nil
    · simp only [if_neg hxs] at hx
      exact absurd rfl hx
  obtain ⟨f1, f2, f3, f4, f5, f6, f7⟩ :=
    initScan_facts g source source 0 (g.adj source) _ hok' hdv Walk.nil hle hsound
      (fun e he => he)
  have hd : (ainit g source).dist = (initScan source (g.adj source)
      (fun v => if v = source then 0 else INF)).dist := rfl
  have hw : (ainit g source).wl = (initScan source (g.adj source)
      (fun v => if v = source then 0 else INF)).pushes := rfl
  unfold AInv
  rw [hd, hw]
  refine ⟨f2, ?_, ?_, ?_⟩
  · intro x
    exact ⟨f3 x, f4 x⟩
  · intro p hp
    obtain ⟨hWp, hpinf, _⟩ := f6 p hp
    exact ⟨hWp, hpinf⟩
  · intro u hu e he
    by_cases hch : (initScan source (g.adj source)
        (fun v => if v = source then 0 else INF)).dist u
        = (fun v : Nat => if v = source then 0 else INF) u
    · by_cases hus : u = source
      · subst hus
        left
        have h5 := f5 e he
        rw [f2]
        simpa using h5
      · exfalso
        rw [hch] at hu
        simp [if_neg hus] at hu
    · right
      exact f7 u hch

/-! ## Vertex-request system: invariant preservation -/

theorem sstep_none {g : Graph} {useSet : Bool} {s : SState} {i : Nat}
    (h : s.wl[i]? = none) : sstep g useSet s i = s := by
  unfold sstep
  rw [h]

theorem sstep_some {g : Graph} {useSet : Bool} {s : SState} {i : Nat} {v : Nat}
    (h : s.wl[i]? = some v) :
    sstep g useSet s i =
      ⟨(setScan v (g.adj v) s.dist).dist,
       (setScan v (g.adj v) s.dist).pushes.foldl (spush useSet) (s.wl.eraseIdx i),
       s.badW + (setScan v (g.adj v) s.dist).bad,
       s.ok && (setScan v (g.adj v) s.dist).ok⟩ := by
  unfold sstep
  rw [h]

theorem sstep_inv (g : Graph) (source : Nat) (useSet : Bool) (s : SState) (i : Nat)
    (hI : SInv g source s) (hok : (sstep g useSet s i).ok = true) :
    SInv g source (sstep g useSet s i) := by
  obtain ⟨h0, hsd, hK⟩ := hI
  cases hidx : s.wl[i]? with
  | none =>
    rw [sstep_none hidx]
    exact ⟨h0, hsd, hK⟩
  | some v =>
    have hd : (sstep g useSet s i).dist = (setScan v (g.adj v) s.dist).dist := by
      rw [sstep_some hidx]
    have hw : (sstep g useSet s i).wl =
        (setScan v (g.adj v) s.dist).pushes.foldl (spush useSet) (s.wl.eraseIdx i) := by
      rw [sstep_some hidx]
    have hok2 : (setScan v (g.adj v) s.dist).ok = true := by
      rw [sstep_some hidx] at hok
      simp only [Bool.and_eq_true] at hok
      exact hok.2
    obtain ⟨f1, f2, f3, f4, f5, f6⟩ :=
      setScan_facts g source v (g.adj v) s.dist hok2
        (fun x => (hsd x).1) (fun x => (hsd x).2) (fun e he => he)
    unfold SInv
    rw [hd, hw]
    refine ⟨?_, ?_, ?_⟩
    · have hle0 := f1 source
      rw [h0] at hle0
      exact Nat.le_zero.mp hle0
    · intro x
      exact ⟨f3 x, f4 x⟩
    · intro u hu e he
      by_cases hch : (setScan v (g.adj v) s.dist).dist u = s.dist u
      · by_cases huv : u = v
        · subst huv
          left
          have hKu : s.dist u ≠ INF := by
            rw [← hch]
            exact hu
          rw [f2]
          exact f5 hKu e he
        · have hu' : s.dist u ≠ INF := by
            rw [← hch]
            exact hu
          rcases hK u hu' e he with hsat | hwit
          · left
            calc (setScan v (g.adj v) s.dist).dist e.1
                ≤ s.dist e.1 := f1 e.1
              _ ≤ s.dist u + e.2 := hsat
              _ = (setScan v (g.adj v) s.dist).dist u + e.2 := by rw [hch]
          · right
            apply mem_foldl_spush_left
            apply mem_eraseIdx_of_ne hwit
            rw [hidx]
            intro hcon
            apply huv
            injection hcon with hcon
            rw [hcon]
      · right
        exact mem_foldl_spush_push useSet u _ _ (f6 u hch)

theorem srun_ok (g : Graph) (useSet : Bool) (sch : List Nat) :
    ∀ s : SState, (srun g useSet sch s).ok = true → s.ok = true := by
  induction sch with
  | nil =>
    intro s h
    exact h
  | cons i sch ih =>
    intro s h
    have hstep := ih (sstep g useSet s i) h
    cases hidx : s.wl[i]? with
    | none =>
      rw [sstep_none hidx] at hstep
      exact hstep
    | some v =>
      rw [sstep_some hidx] at hstep
      simp only [Bool.and_eq_true] at hstep
      exact hstep.1

theorem srun_inv (g : Graph) (source : Nat) (useSet : Bool) (sch : List Nat) :
    ∀ s : SState, SInv g source s → (srun g useSet sch s).ok = true →
      SInv g source (srun g useSet sch s) := by
  induction sch with
  | nil =>
    intro s hI _
    exact hI
  | cons i sch ih =>
    intro s hI hok
    exact ih (sstep g useSet s i)
      (sstep_inv g source useSet s i hI (srun_ok g useSet sch _ hok)) hok

theorem sinit_inv (g : Graph) (useSet : Bool) (source : Nat)
    (hok : (sinit g useSet source).ok = true) :
    SInv g source (sinit g useSet source) := by
  have hok' : (setScan source (g.adj source)
      (fun v => if v = source then 0 else INF)).ok = true := hok
  have hle : ∀ x, (fun v : Nat => if v = source then 0 else INF) x ≤ INF := by
    intro x
    by_cases hx : x = source <;> simp [hx]
  have hsound : ∀ x, (fun v : Nat => if v = source then 0 else INF) x ≠ INF →
      Walk g source x ((fun v : Nat => if v = source then 0 else INF) x) := by
    intro x hx
    by_cases hxs : x = source
    · subst hxs
      simp only [if_pos rfl]
      exact Walk.nil
    · simp only [if_neg hxs] at hx
      exact absurd rfl hx
  obtain ⟨f1, f2, f3, f4, f5, f6⟩ :=
    setScan_facts g source source (g.adj source) _ hok' hle hsound (fun e he => he)
  have hd : (sinit g useSet source).dist = (setScan source (g.adj source)
      (fun v => if v = source then 0 else INF)).dist := rfl
  have hw : (sinit g useSet source).wl = (setScan source (g.adj source)
      (fun v => if v = source then 0 else INF)).pushes.foldl (spush useSet) [] := rfl
  unfold SInv
  rw [hd, hw]
  have hz : (0 : Nat) ≠ INF := by
    unfold INF
    norm_num
  refine ⟨?_, ?_, ?_⟩
  · rw [f2]
    simp
  · intro x
    exact ⟨f3 x, f4 x⟩
  · intro u hu e he
    by_cases hch : (setScan source (g.adj source)
        (fun v => if v = source then 0 else INF)).dist u
        = (fun v : Nat => if v = source then 0 else INF) u
    · by_cases hus : u = source
      · subst hus
        left
        have h5 := f5 (by simpa using hz) e he
        rw [f2]
        simpa using h5
      · exfalso
        rw [hch] at hu
        simp [if_neg hus] at hu
    · right
      exact mem_foldl_spush_push useSet u _ _ (f6 u hch)

/-! ## Serial baseline: invariant preservation -/

theorem serialScan_cons_lt {w : Nat} {dist : Nat → Nat} {e : Nat × Nat}
    {es pq : List (Nat × Nat)} (h : (w + e.2) % M32 < dist e.1) :
    serialScan w dist (e :: es) pq =
      ((serialScan w dist es (sinsert (e.1, (w + e.2) % M32) pq)).1,
       decide (w + e.2 < M32)
         && (serialScan w dist es (sinsert (e.1, (w + e.2) % M32) pq)).2) := by
  simp only [serialScan]
  rw [if_pos h]

theorem serialScan_cons_ge {w : Nat} {dist : Nat → Nat} {e : Nat × Nat}
    {es pq : List (Nat × Nat)} (h : ¬ (w + e.2) % M32 < dist e.1) :
    serialScan w dist (e :: es) pq =
      ((serialScan w dist es pq).1,
       decide (w + e.2 < M32) && (serialScan w dist es pq).2) := by
  simp only [serialScan]
  rw [if_neg h]

theorem mem_sinsert {x a : Nat × Nat} :
    ∀ {l : List (Nat × Nat)}, a ∈ sinsert x l → a = x ∨ a ∈ l := by
  intro l
  induction l with
  | nil =>
    intro h
    simp [sinsert] at h
    exact Or.inl h
  | cons y ys ih =>
    intro h
    unfold sinsert at h
    split at h
    · rcases List.mem_cons.mp h with h | h
      · exact Or.inl h
      · exact Or.inr h
    · split at h
      · exact Or.inr h
      · rcases List.mem_cons.mp h with h | h
        · exact Or.inr (by simp [h])
        · rcases ih h with h | h
          · exact Or.inl h
          · exact Or.inr (List.mem_cons_of_mem _ h)

theorem serialScan_facts (g : Graph) (source v w : Nat) (dist : Nat → Nat)
    (es : List (Nat × Nat)) :
    ∀ pq : List (Nat × Nat),
      (serialScan w dist es pq).2 = true →
      Walk g source v w →
      (∀ x, dist x ≤ INF) →
      (∀ e ∈ es, e ∈ g.adj v) →
      (∀ p ∈ pq, Walk g source p.1 p.2 ∧ p.2 < INF) →
      (∀ p ∈ pq, p ∈ (serialScan w dist es pq).1)
      ∧ (∀ p ∈ (serialScan w dist es pq).1, Walk g source p.1 p.2 ∧ p.2 < INF)
      ∧ (∀ e ∈ es, dist e.1 ≤ w + e.2 ∨ (e.1, w + e.2) ∈ (serialScan w dist es pq).1) := by
  induction es with
  | nil =>
    intro pq _ _ _ _ hpq
    refine ⟨fun p hp => hp, hpq, ?_⟩
    intro e he
    simp at he
  | cons e es ih =>
    intro pq hok hWv hle hadj hpq
    have hadj' : ∀ e' ∈ es, e' ∈ g.adj v :=
      fun e' he' => hadj e' (List.mem_cons_of_mem _ he')
    have heAdj : (e.1, e.2) ∈ g.adj v := by
      rw [Prod.mk.eta]
      exact hadj e (List.mem_cons_self e es)
    by_cases hrel : (w + e.2) % M32 < dist e.1
    · rw [serialScan_cons_lt hrel] at hok ⊢
      simp only [Bool.and_eq_true] at hok
      obtain ⟨hok1, hok2⟩ := hok
      have hsum : w + e.2 < M32 := of_decide_eq_true hok1
      have hnd : (w + e.2) % M32 = w + e.2 := Nat.mod_eq_of_lt hsum
      rw [hnd] at hrel hok2 ⊢
      have hpq1 : ∀ p ∈ sinsert (e.1, w + e.2) pq,
          Walk g source p.1 p.2 ∧ p.2 < INF := by
        intro p hp
        rcases mem_sinsert hp with hp | hp
        · subst hp
          exact ⟨Walk.cons hWv heAdj, lt_of_lt_of_le hrel (hle e.1)⟩
        · exact hpq p hp
      obtain ⟨a1, a2, a3⟩ := ih (sinsert (e.1, w + e.2) pq) hok2 hWv hle hadj' hpq1
      refine ⟨?_, a2, ?_⟩
      · intro p hp
        exact a1 p (mem_sinsert_of_mem _ p _ hp)
      · intro e' he'
        rcases List.mem_cons.mp he' with he' | he'
        · subst he'
          right
          exact a1 _ (mem_sinsert_self _ pq)
        · exact a3 e' he'
    · rw [serialScan_cons_ge hrel] at hok ⊢
      simp only [Bool.and_eq_true] at hok
      obtain ⟨hok1, hok2⟩ := hok
      have hsum : w + e.2 < M32 := of_decide_eq_true hok1
      have hnd : (w + e.2) % M32 = w + e.2 := Nat.mod_eq_of_lt hsum
      rw [hnd] at hrel
      obtain ⟨a1, a2, a3⟩ := ih pq hok2 hWv hle hadj' hpq
      refine ⟨a1, a2, ?_⟩
      intro e' he'
      rcases List.mem_cons.mp he' with he' | he'
      · subst he'
        left
        omega
      · exact a3 e' he'

theorem serialStep_nil {g : Graph} {s : SerState} (h : s.pq = []) :
    serialStep g s = s := by
  simp only [serialStep, h]

theorem serialStep_imp {g : Graph} {s : SerState} {req : Nat × Nat}
    {rest : List (Nat × Nat)} (h : s.pq = req :: rest)
    (himp : req.2 < s.dist req.1) :
    serialStep g s =
      ⟨fun x => if x = req.1 then req.2 else s.dist x,
       (serialScan req.2 (fun x => if x = req.1 then req.2 else s.dist x)
         (g.adj req.1) rest).1,
       s.ok && (serialScan req.2 (fun x => if x = req.1 then req.2 else s.dist x)
         (g.adj req.1) rest).2⟩ := by
  simp only [serialStep, h]
  rw [if_pos himp]

theorem serialStep_skip {g : Graph} {s : SerState} {req : Nat × Nat}
    {rest : List (Nat × Nat)} (h : s.pq = req :: rest)
    (himp : ¬ req.2 < s.dist req.1) :
    serialStep g s = ⟨s.dist, rest, s.ok⟩ := by
  simp only [serialStep, h]
  rw [if_neg himp]

theorem serialStep_inv (g : Graph) (source : Nat) (s : SerState)
    (hI : SerInv g source s) (hok : (serialStep g s).ok = true) :
    SerInv g source (serialStep g s) := by
  obtain ⟨h0, hsd, hpq, hK⟩ := hI
  cases hpqe : s.pq with
  | nil =>
    rw [serialStep_nil hpqe]
    exact ⟨h0, hsd, hpq, hK⟩
  | cons req rest =>
    have hreqW := hpq req (by rw [hpqe]; exact List.mem_cons_self _ _)
    have hrest : ∀ p ∈ rest, Walk g source p.1 p.2 ∧ p.2 < INF :=
      fun p hp => hpq p (by rw [hpqe]; exact List.mem_cons_of_mem _ hp)
    by_cases himp : req.2 < s.dist req.1
    · -- improving pop: the distance is written, the edges scanned
      have hok2 : (serialScan req.2 (fun x => if x = req.1 then req.2 else s.dist x)
          (g.adj req.1) rest).2 = true := by
        rw [serialStep_imp hpqe himp] at hok
        simp only [Bool.and_eq_true] at hok
        exact hok.2
      have hle1 : ∀ x, (if x = req.1 then req.2 else s.dist x) ≤ INF := by
        intro x
        by_cases hx : x = req.1
        · simp only [if_pos hx]
          exact le_of_lt hreqW.2
        · simp only [if_neg hx]
          exact (hsd x).1
      obtain ⟨a1, a2, a3⟩ :=
        serialScan_facts g source req.1 req.2
          (fun x => if x = req.1 then req.2 else s.dist x) (g.adj req.1) rest
          hok2 hreqW.1 hle1 (fun e he => he) hrest
      rw [serialStep_imp hpqe himp]
      refine ⟨?_, ?_, a2, ?_⟩
      · -- source clause
        rcases h0 with h0 | h0
        · left
          have hsr : source ≠ req.1 := by
            intro hcon
            rw [← hcon] at himp
            omega
          simp only [if_neg hsr]
          exact h0
        · rw [hpqe] at h0
          rcases List.mem_cons.mp h0 with h0 | h0
          · left
            have h1 : req.1 = source := by rw [← h0]
            have h2 : req.2 = 0 := by rw [← h0]
            simp [h1, h2]
          · right
            exact a1 _ h0
      · -- soundness
        intro x
        by_cases hx : x = req.1
        · subst hx
          simp only [if_pos rfl]
          exact ⟨le_of_lt hreqW.2, fun _ => hreqW.1⟩
        · simp only [if_neg hx]
          exact hsd x
      · -- relaxable edges are witnessed
        intro u hu e he
        by_cases huv : u = req.1
        · subst huv
          simp only [if_pos rfl] at hu ⊢
          rcases a3 e he with hsat | hwit
          · left
            exact hsat
          · right
            exact ⟨req.2 + e.2, hwit, le_refl _⟩
        · simp only [if_neg huv] at hu ⊢
          rcases hK u hu e he with hsat | ⟨w2, hmem, hle2⟩
          · left
            by_cases hex : e.1 = req.1
            · simp only [if_pos hex]
              rw [hex] at hsat
              calc req.2 ≤ s.dist req.1 := le_of_lt himp
                _ ≤ s.dist u + e.2 := hsat
            · simp only [if_neg hex]
              exact hsat
          · rw [hpqe] at hmem
            rcases List.mem_cons.mp hmem with hmem | hmem
            · left
              have h1 : e.1 = req.1 := by rw [← hmem]
              have h2 : w2 = req.2 := by rw [← hmem]
              simp only [if_pos h1]
              rw [← h2]
              exact hle2
            · right
              exact ⟨w2, a1 _ hmem, hle2⟩
    · -- non-improving pop: the stale request is dropped
      rw [serialStep_skip hpqe himp]
      refine ⟨?_, hsd, ?_, ?_⟩
      · rcases h0 with h0 | h0
        · left
          exact h0
        · rw [hpqe] at h0
          rcases List.mem_cons.mp h0 with h0 | h0
          · left
            have h1 : req.1 = source := by rw [← h0]
            have h2 : req.2 = 0 := by rw [← h0]
            rw [h1, h2] at himp
            show s.dist source = 0
            omega
          · right
            exact h0
      · exact hrest
      · intro u hu e he
        rcases hK u hu e he with hsat | ⟨w2, hmem, hle2⟩
        · left
          exact hsat
        · rw [hpqe] at hmem
          rcases List.mem_cons.mp hmem with hmem | hmem
          · left
            have h1 : e.1 = req.1 := by rw [← hmem]
            have h2 : w2 = req.2 := by rw [← hmem]
            calc s.dist e.1 ≤ req.2 := by
                  rw [h1]
                  omega
              _ = w2 := h2.symm
              _ ≤ s.dist u + e.2 := hle2
          · exact ⟨w2, hmem, hle2⟩ |> Or.inr

theorem serialRun_ok (g : Graph) (fuel : Nat) :
    ∀ s : SerState, (serialRun g fuel s).ok = true → s.ok = true := by
  induction fuel with
  | zero =>
    intro s h
    exact h
  | succ n ih =>
    intro s h
    have hstep := ih (serialStep g s) h
    cases hpqe : s.pq with
    | nil =>
      rw [serialStep_nil hpqe] at hstep
      exact hstep
    | cons req rest =>
      by_cases himp : req.2 < s.dist req.1
      · rw [serialStep_imp hpqe himp] at hstep
        simp only [Bool.and_eq_true] at hstep
        exact hstep.1
      · rw [serialStep_skip hpqe himp] at hstep
        exact hstep

theorem serialRun_inv (g : Graph) (source : Nat) (fuel : Nat) :
    ∀ s : SerState, SerInv g source s → (serialRun g fuel s).ok = true →
      SerInv g source (serialRun g fuel s) := by
  induction fuel with
  | zero =>
    intro s hI _
    exact hI
  | succ n ih =>
    intro s hI hok
    exact ih (serialStep g s)
      (serialStep_inv g source s hI (serialRun_ok g n _ hok)) hok

theorem INF_pos : 0 < INF := by
  unfold INF
  norm_num

theorem serialInit_inv (g : Graph) (source : Nat) :
    SerInv g source (serialInit source) := by
  refine ⟨Or.inr (by simp [serialInit]), ?_, ?_, ?_⟩
  · intro x
    exact ⟨le_refl INF, fun h => absurd rfl h⟩
  · intro p hp
    simp only [serialInit, List.mem_singleton] at hp
    subst hp
    exact ⟨Walk.nil, INF_pos⟩
  · intro u hu e he
    exact absurd rfl hu

/-! ## Terminal states satisfy closure; closed sound states are unique -/

theorem AInv_final (g : Graph) (source : Nat) (s : AState)
    (hI : AInv g source s) (hemp : s.wl = []) :
    s.dist source = 0 ∧ SoundDist g source s.dist ∧ Closed g s.dist := by
  obtain ⟨h0, hsd, _, hK⟩ := hI
  refine ⟨h0, hsd, ?_⟩
  intro u hu e he
  rcases hK u hu e he with h | h
  · exact h
  · rw [hemp] at h
    simp at h

theorem SInv_final (g : Graph) (source : Nat) (s : SState)
    (hI : SInv g source s) (hemp : s.wl = []) :
    s.dist source = 0 ∧ SoundDist g source s.dist ∧ Closed g s.dist := by
  obtain ⟨h0, hsd, hK⟩ := hI
  refine ⟨h0, hsd, ?_⟩
  intro u hu e he
  rcases hK u hu e he with h | h
  · exact h
  · rw [hemp] at h
    simp at h

theorem SerInv_final (g : Graph) (source : Nat) (s : SerState)
    (hI : SerInv g source s) (hemp : s.pq = []) :
    s.dist source = 0 ∧ SoundDist g source s.dist ∧ Closed g s.dist := by
  obtain ⟨h0, hsd, _, hK⟩ := hI
  refine ⟨?_, hsd, ?_⟩
  · rcases h0 with h0 | h0
    · exact h0
    · rw [hemp] at h0
      simp at h0
  · intro u hu e he
    rcases hK u hu e he with h | ⟨w2, hmem, _⟩
    · exact h
    · rw [hemp] at hmem
      simp at hmem

theorem closure_walk_le (g : Graph) (source : Nat) (dist : Nat → Nat)
    (hC : Closed g dist) (h0 : dist source = 0) :
    ∀ {v L}, Walk g source v L → L < INF → dist v ≤ L := by
  intro v L hw
  induction hw with
  | nil =>
    intro _
    rw [h0]
  | cons hw' he ih =>
    next v' u' w' L' =>
      intro hL
      have hL' : L' < INF := by omega
      have hdv : dist v' ≤ L' := ih hL'
      have hdvINF : dist v' ≠ INF := by omega
      have hstep := hC v' hdvINF (u', w') he
      simp only at hstep
      omega

theorem final_dist_le (g : Graph) (source : Nat) (d1 d2 : Nat → Nat)
    (hs1 : SoundDist g source d1)
    (h2 : d2 source = 0) (hc2 : Closed g d2) :
    ∀ v, d1 v ≠ INF → d2 v ≤ d1 v := by
  intro v hv
  have hW := (hs1 v).2 hv
  have hlt : d1 v < INF := lt_of_le_of_ne (hs1 v).1 hv
  exact closure_walk_le g source d2 hc2 h2 hW hlt

theorem final_dist_unique (g : Graph) (source : Nat) (d1 d2 : Nat → Nat)
    (h1 : d1 source = 0) (hs1 : SoundDist g source d1) (hc1 : Closed g d1)
    (h2 : d2 source = 0) (hs2 : SoundDist g source d2) (hc2 : Closed g d2) :
    ∀ v, d1 v = d2 v := by
  intro v
  by_cases hv1 : d1 v = INF
  · by_cases hv2 : d2 v = INF
    · rw [hv1, hv2]
    · exfalso
      have h12 : d1 v ≤ d2 v := final_dist_le g source d2 d1 hs2 h1 hc1 v hv2
      have hlt : d2 v < INF := lt_of_le_of_ne (hs2 v).1 hv2
      omega
  · have h21 : d2 v ≤ d1 v := final_dist_le g source d1 d2 hs1 h2 hc2 v hv1
    have hlt : d1 v < INF := lt_of_le_of_ne (hs1 v).1 hv1
    have hv2 : d2 v ≠ INF := by omega
    have h12 : d1 v ≤ d2 v := final_dist_le g source d2 d1 hs2 h1 hc1 v hv2
    omega

/-! ## Claim C1 -/

/-- C1 (amended): for every graph, source, schedule and configuration
(CAS vs non-CAS coincide operator-wise in an interference-free step;
OBIM vs FIFO pop orders are covered by the schedule; plain vs work-set
and blind vs empty-work-discarding are the two systems and the `useSet`
flag), if the request-carrying run, the blind vertex-request run and the
serial baseline all run to completion (empty worklist) and no 32-bit
distance sum wraps during any of the three runs, then both parallel
systems produce exactly the serial baseline's `dist` array.  The no-wrap
condition is forced by the counterexample `async_serial_mismatch`: with
wrapping sums the parallel result can differ from the serial one. -/
theorem async_configurations_match_serial (g : Graph) (source : Nat)
    (schA schS : List Nat) (useSet : Bool) (fuel : Nat)
    (hA1 : (arun g schA (ainit g source)).ok = true)
    (hA2 : (arun g schA (ainit g source)).wl = [])
    (hS1 : (srun g useSet schS (sinit g useSet source)).ok = true)
    (hS2 : (srun g useSet schS (sinit g useSet source)).wl = [])
    (hZ1 : (serialRun g fuel (serialInit source)).ok = true)
    (hZ2 : (serialRun g fuel (serialInit source)).pq = []) :
    ∀ v, (arun g schA (ainit g source)).dist v
        = (serialRun g fuel (serialInit source)).dist v
    ∧ (srun g useSet schS (sinit g useSet source)).dist v
        = (serialRun g fuel (serialInit source)).dist v := by
  have hAI := arun_inv g source schA _
    (ainit_inv g source (arun_ok g schA _ hA1)) hA1
  have hAF := AInv_final g source _ hAI hA2
  have hSI := srun_inv g source useSet schS _
    (sinit_inv g useSet source (srun_ok g useSet schS _ hS1)) hS1
  have hSF := SInv_final g source _ hSI hS2
  have hZI := serialRun_inv g source fuel _ (serialInit_inv g source) hZ1
  have hZF := SerInv_final g source _ hZI hZ2
  intro v
  constructor
  · exact final_dist_unique g source _ _
      hAF.1 hAF.2.1 hAF.2.2 hZF.1 hZF.2.1 hZF.2.2 v
  · exact final_dist_unique g source _ _
      hSF.1 hSF.2.1 hSF.2.2 hZF.1 hZF.2.1 hZF.2.2 v

/-- C1 counterexample: on `gWrap`, where the sum `dist 1 + 10` wraps in
32 bits, the request-carrying run under a FIFO (head-first) schedule and
the serial baseline both run to completion but disagree at vertex 2
(8 against 20), refuting the claim as stated for every graph. -/
theorem async_serial_mismatch :
    (arun gWrap [0, 0, 0, 0, 0] (ainit gWrap 0)).wl = []
    ∧ (serialRun gWrap 8 (serialInit 0)).pq = []
    ∧ (arun gWrap [0, 0, 0, 0, 0] (ainit gWrap 0)).dist 2 = 8
    ∧ (serialRun gWrap 8 (serialInit 0)).dist 2 = 20 :=
  ⟨rfl, rfl, rfl, rfl⟩

theorem async_configurations_match_serial_witness :
    (arun gChain [0, 0] (ainit gChain 0)).ok = true
    ∧ (arun gChain [0, 0] (ainit gChain 0)).wl = []
    ∧ (arun gChain [0, 0] (ainit gChain 0)).dist 2
        = (serialRun gChain 5 (serialInit 0)).dist 2
    ∧ (srun gChain true [0, 0] (sinit gChain true 0)).dist 2
        = (serialRun gChain 5 (serialInit 0)).dist 2 :=
  ⟨rfl, rfl,
   (async_configurations_match_serial gChain 0 [0, 0] [0, 0] true 5
      rfl rfl rfl rfl rfl rfl 2).1,
   (async_configurations_match_serial gChain 0 [0, 0] [0, 0] true 5
      rfl rfl rfl rfl rfl rfl 2).2⟩

/-! ## Claim C2 -/

/-- C2: for every `relaxEdge` call on an edge `e` into vertex `e.1` with
32-bit proposed distance `newDist = (sdist + e.2) % 2^32` (the value the
source computes for `dist[v] + w`): if `newDist >= dist[u]` nothing
changes and nothing is pushed; if `newDist < dist[u]` then `dist[u]`
becomes `newDist`, no other vertex changes, and exactly one request is
pushed — `(u, newDist)` in the request-carrying variant, just `u` in the
set variant.  In particular `dist[u]` never increases. -/
theorem relaxEdge_protocol (dist : Nat → Nat) (sdist : Nat) (e : Nat × Nat) :
    (((sdist + e.2) % M32 ≥ dist e.1 →
        (relaxEdge dist sdist e).dist = dist
        ∧ (relaxEdge dist sdist e).pushes = [])
      ∧ ((sdist + e.2) % M32 < dist e.1 →
        (relaxEdge dist sdist e).dist e.1 = (sdist + e.2) % M32
        ∧ (∀ x, x ≠ e.1 → (relaxEdge dist sdist e).dist x = dist x)
        ∧ (relaxEdge dist sdist e).pushes = [(e.1, (sdist + e.2) % M32)])
      ∧ (relaxEdge dist sdist e).dist e.1 ≤ dist e.1)
    ∧ (((sdist + e.2) % M32 ≥ dist e.1 →
        (relaxEdgeSet dist sdist e).dist = dist
        ∧ (relaxEdgeSet dist sdist e).pushes = [])
      ∧ ((sdist + e.2) % M32 < dist e.1 →
        (relaxEdgeSet dist sdist e).dist e.1 = (sdist + e.2) % M32
        ∧ (∀ x, x ≠ e.1 → (relaxEdgeSet dist sdist e).dist x = dist x)
        ∧ (relaxEdgeSet dist sdist e).pushes = [e.1])
      ∧ (relaxEdgeSet dist sdist e).dist e.1 ≤ dist e.1) := by
  constructor
  · refine ⟨?_, ?_, ?_⟩
    · intro hge
      rw [relaxEdge_of_ge (by omega)]
      exact ⟨rfl, rfl⟩
    · intro hlt
      rw [relaxEdge_of_lt hlt]
      refine ⟨by simp, ?_, rfl⟩
      intro x hx
      simp [if_neg hx]
    · by_cases hlt : (sdist + e.2) % M32 < dist e.1
      · rw [relaxEdge_of_lt hlt]
        show (if e.1 = e.1 then (sdist + e.2) % M32 else dist e.1) ≤ dist e.1
        rw [if_pos rfl]
        omega
      · rw [relaxEdge_of_ge hlt]
  · refine ⟨?_, ?_, ?_⟩
    · intro hge
      rw [relaxEdgeSet_of_ge (by omega)]
      exact ⟨rfl, rfl⟩
    · intro hlt
      rw [relaxEdgeSet_of_lt hlt]
      refine ⟨by simp, ?_, rfl⟩
      intro x hx
      simp [if_neg hx]
    · by_cases hlt : (sdist + e.2) % M32 < dist e.1
      · rw [relaxEdgeSet_of_lt hlt]
        show (if e.1 = e.1 then (sdist + e.2) % M32 else dist e.1) ≤ dist e.1
        rw [if_pos rfl]
        omega
      · rw [relaxEdgeSet_of_ge hlt]

theorem relaxEdge_protocol_witness :
    (relaxEdge dWit 0 (1, 3)).dist 1 = 3
    ∧ (relaxEdgeSet dWit 0 (1, 3)).dist 1 = 3
    ∧ (relaxEdge dWit 0 (1, 7)).dist = dWit :=
  ⟨((relaxEdge_protocol dWit 0 (1, 3)).1.2.1 (by decide)).1,
   ((relaxEdge_protocol dWit 0 (1, 3)).2.2.1 (by decide)).1,
   ((relaxEdge_protocol dWit 0 (1, 7)).1.1 (by decide)).1⟩

/-! ## Claim C3 -/

theorem not_consistent_eq_false (g : Graph) (dist : Nat → Nat) (v : Nat) :
    not_consistent g dist v = false ↔
      (dist v ≠ INF → ∀ e ∈ g.adj v, dist e.1 ≤ (dist v + e.2) % M32) := by
  unfold not_consistent
  by_cases hv : dist v = INF
  · simp [hv]
  · rw [if_neg hv]
    constructor
    · intro h _ e he
      by_contra hlt
      have hany : (g.adj v).any
          (fun e => decide ((dist v + e.2) % M32 < dist e.1)) = true :=
        List.any_eq_true.mpr ⟨e, he, by simp; omega⟩
      rw [hany] at h
      exact Bool.true_eq_false.mp h
    · intro h
      by_contra hne
      have hany : (g.adj v).any
          (fun e => decide ((dist v + e.2) % M32 < dist e.1)) = true := by
        cases hcase : (g.adj v).any
            (fun e => decide ((dist v + e.2) % M32 < dist e.1)) with
        | true => rfl
        | false => exact absurd hcase hne
      obtain ⟨e, he, hlt⟩ := List.any_eq_true.mp hany
      simp only [decide_eq_true_eq] at hlt
      have := h hv e he
      omega

/-- C3: the verifier returns true exactly when the source distance is 0
and no visited vertex has a relaxable out-edge (all comparisons in the
32-bit arithmetic of the source); vertices with `dist = INF` only
produce the unvisited-count warning and never make `verify` false. -/
theorem verify_iff (g : Graph) (source : Nat) (dist : Nat → Nat) :
    verify g source dist = true ↔
      (dist source = 0
       ∧ ∀ v ∈ List.range g.n, dist v ≠ INF →
           ∀ e ∈ g.adj v, dist e.1 ≤ (dist v + e.2) % M32) := by
  unfold verify
  by_cases h0 : dist source = 0
  · rw [if_neg (by simp [h0])]
    by_cases hall : (List.range g.n).all (fun v => !(not_consistent g dist v)) = true
    · rw [hall]
      simp only [Bool.not_true, if_neg (by simp : ¬ false = true)]
      constructor
      · intro _
        refine ⟨h0, ?_⟩
        intro v hv
        have := List.all_eq_true.mp hall v hv
        simp only [Bool.not_eq_true'] at this
        exact (not_consistent_eq_false g dist v).mp this
      · intro _
        trivial
    · have hallf : (List.range g.n).all (fun v => !(not_consistent g dist v)) = false := by
        cases hcase : (List.range g.n).all (fun v => !(not_consistent g dist v)) with
        | true => exact absurd hcase hall
        | false => rfl
      rw [hallf]
      simp only [Bool.not_false, if_pos rfl]
      constructor
      · intro h
        exact absurd h (by simp)
      · intro ⟨_, h⟩
        exfalso
        apply hall
        apply List.all_eq_true.mpr
        intro v hv
        simp only [Bool.not_eq_true']
        exact (not_consistent_eq_false g dist v).mpr (h v hv)
  · rw [if_pos (by simp [h0])]
    constructor
    · intro h
      exact absurd h (by simp)
    · intro ⟨h, _⟩
      exact absurd h h0

theorem verify_iff_witness :
    verify gChain 0 (fun v => if v = 0 then 0 else if v = 1 then 2 else 5) = true :=
  (verify_iff gChain 0 _).mpr ⟨rfl, by decide⟩

/-! ## Claim C4 -/

theorem relaxEdgePP_of_lt {dist : Nat → Nat} {sdist : Nat} {e : Nat × Nat}
    (h : (sdist + e.2) % M32 < dist e.1) :
    relaxEdgePP dist sdist e =
      ⟨fun x => if x = e.1 then (sdist + e.2) % M32 else dist x, sdist,
       [(e.1, (sdist + e.2) % M32)],
       if dist e.1 ≠ INF then 1 else 0⟩ := by
  simp [relaxEdgePP, h]

theorem relaxEdgePP_of_ge {dist : Nat → Nat} {sdist : Nat} {e : Nat × Nat}
    (h : ¬ (sdist + e.2) % M32 < dist e.1) :
    relaxEdgePP dist sdist e =
      ⟨dist, min ((dist e.1 + e.2) % M32) sdist, [], 0⟩ := by
  simp [relaxEdgePP, h]

/-- C4 (amended): when the 32-bit sum `sdist + d` equals `INF` exactly,
the edge is treated as infinite in all three relaxEdge variants: no
relaxation occurs, `dist` is unchanged and nothing is pushed (every
stored distance being at most `INF`).  When the sum exceeds `INF`,
however, the addition wraps modulo `2^32` instead of saturating, and the
edge does relax `dist[u]` to the wrapped value whenever that value is
below `dist[u]` — see `relax_wraps_counterexample`. -/
theorem relax_saturation_amended (dist : Nat → Nat) (sdist : Nat) (e : Nat × Nat)
    (hle : dist e.1 ≤ INF) :
    (sdist + e.2 = INF →
      (relaxEdge dist sdist e).dist = dist
      ∧ (relaxEdge dist sdist e).pushes = []
      ∧ (relaxEdgeSet dist sdist e).dist = dist
      ∧ (relaxEdgeSet dist sdist e).pushes = []
      ∧ (relaxEdgePP dist sdist e).dist = dist
      ∧ (relaxEdgePP dist sdist e).pushes = [])
    ∧ (sdist + e.2 > INF →
      (relaxEdge dist sdist e).dist e.1 =
        (if (sdist + e.2) % M32 < dist e.1 then (sdist + e.2) % M32
         else dist e.1)) := by
  constructor
  · intro hinf
    have hmod : (sdist + e.2) % M32 = INF := by
      rw [hinf]
      exact Nat.mod_eq_of_lt INF_lt_M32
    have hge : ¬ (sdist + e.2) % M32 < dist e.1 := by
      rw [hmod]
      omega
    rw [relaxEdge_of_ge hge, relaxEdgeSet_of_ge hge, relaxEdgePP_of_ge hge]
    exact ⟨rfl, rfl, rfl, rfl, rfl, rfl⟩
  · intro _
    by_cases hlt : (sdist + e.2) % M32 < dist e.1
    · rw [relaxEdge_of_lt hlt, if_pos hlt]
      simp
    · rw [relaxEdge_of_ge hlt, if_neg hlt]

/-- C4 counterexample: with `dist[1] = 5`, source distance `2^32 - 2` and
edge weight 3 the sum reaches `2^32 + 1 > INF`, yet the edge is not
treated as infinite: the addition wraps to 1 and `dist[1]` is relaxed to
1, refuting the claimed saturation. -/
theorem relax_wraps_counterexample :
    INF < 2 ^ 32 - 2 + 3
    ∧ (relaxEdge dWit (2 ^ 32 - 2) (1, 3)).dist 1 = 1 := by
  constructor
  · unfold INF
    norm_num
  · rfl

theorem relax_saturation_amended_witness :
    (relaxEdge dWit (2 ^ 32 - 4) (1, 3)).dist = dWit
    ∧ (relaxEdge dWit (2 ^ 32 - 2) (1, 3)).dist 1 =
        (if (2 ^ 32 - 2 + 3) % M32 < dWit 1 then (2 ^ 32 - 2 + 3) % M32
         else dWit 1) :=
  ⟨((relax_saturation_amended dWit (2 ^ 32 - 4) (1, 3) (by decide)).1 (by decide)).1,
   (relax_saturation_amended dWit (2 ^ 32 - 2) (1, 3) (by decide)).2 (by decide)⟩

/-! ## Claim C5 -/

/-- C5: in the request-carrying variant, a request `(v, w)` popped with
`w != dist[v]` is a silent no-op: `relaxNode` bumps the `EmptyWork`
statistic by exactly 1 and returns before touching any edge — every
distance is unchanged, nothing is pushed and `BadWork` is untouched. -/
theorem relaxNode_empty_work (g : Graph) (dist : Nat → Nat) (req : Nat × Nat)
    (h : req.2 ≠ dist req.1) :
    (relaxNode g dist req).dist = dist
    ∧ (relaxNode g dist req).pushes = []
    ∧ (relaxNode g dist req).emptyW = 1
    ∧ (relaxNode g dist req).bad = 0 := by
  rw [relaxNode_stale h]
  exact ⟨rfl, rfl, rfl, rfl⟩

theorem relaxNode_empty_work_witness :
    (relaxNode gChain dWit (0, 7)).dist = dWit
    ∧ (relaxNode gChain dWit (0, 7)).emptyW = 1 :=
  ⟨(relaxNode_empty_work gChain dWit (0, 7) (by decide)).1,
   (relaxNode_empty_work gChain dWit (0, 7) (by decide)).2.2.1⟩

/-! ## Claim C6 -/

theorem ppScan_cons_dist (e : Nat × Nat) (es : List (Nat × Nat))
    (dist : Nat → Nat) (sdist : Nat) :
    (ppScan (e :: es) dist sdist).dist =
      (ppScan es (relaxEdgePP dist sdist e).dist
        (relaxEdgePP dist sdist e).sdist).dist := rfl

theorem ppScan_dist_untouched (x : Nat) (es : List (Nat × Nat)) :
    ∀ (dist : Nat → Nat) (sdist : Nat), (∀ e ∈ es, e.1 ≠ x) →
      (ppScan es dist sdist).dist x = dist x := by
  induction es with
  | nil =>
    intro dist sdist _
    rfl
  | cons e es ih =>
    intro dist sdist hne
    rw [ppScan_cons_dist]
    rw [ih _ _ (fun e' he' => hne e' (List.mem_cons_of_mem _ he'))]
    have hxe : x ≠ e.1 := fun hcon => hne e (List.mem_cons_self e es) hcon.symm
    by_cases hrel : (sdist + e.2) % M32 < dist e.1
    · rw [relaxEdgePP_of_lt hrel]
      show (if x = e.1 then (sdist + e.2) % M32 else dist x) = dist x
      rw [if_neg hxe]
    · rw [relaxEdgePP_of_ge hrel]

/-- C6 (amended): during the push-pull edge scan an edge that yields no
push (`newDist >= dist[u]`) updates the local copy `sdist` to
`min((dist[u] + d) % 2^32, sdist)` and changes nothing else; but the
improved `sdist` is never written back into `dist[req.v]`: the pull
write-back (and its CAS guard) is commented out in the source, so the
operator returns right after the scan and `dist[req.v]` is unchanged
(when `req.v` has no self-loop, a relax write being the only other way
to touch it), even when the final `sdist` is strictly smaller. -/
theorem push_pull_amended (dist : Nat → Nat) (sdist : Nat) (e : Nat × Nat) :
    ((sdist + e.2) % M32 ≥ dist e.1 →
      (relaxEdgePP dist sdist e).sdist = min ((dist e.1 + e.2) % M32) sdist
      ∧ (relaxEdgePP dist sdist e).dist = dist
      ∧ (relaxEdgePP dist sdist e).pushes = [])
    ∧ ∀ (g : Graph) (req : Nat × Nat), (∀ e' ∈ g.adj req.1, e'.1 ≠ req.1) →
      (ppProcess g dist req).dist req.1 = dist req.1 := by
  constructor
  · intro hge
    rw [relaxEdgePP_of_ge (by omega)]
    exact ⟨rfl, rfl, rfl⟩
  · intro g req hne
    unfold ppProcess
    split
    · rfl
    · exact ppScan_dist_untouched req.1 (g.adj req.1) dist (dist req.1) hne

/-- C6 counterexample: on `gPull` with `dist = [10, 1]` and the fresh
request (0, 10), the scan improves the local `sdist` to
`3 = min(dist[1] + 2, 10) < dist[0]`, yet no pull write-back happens:
`dist[0]` stays 10, refuting the claimed CAS-guarded write-back of the
improved `sdist` into `dist[req.v]`. -/
theorem push_pull_writeback_missing :
    (ppProcess gPull dPull (0, 10)).sdist = 3
    ∧ (ppProcess gPull dPull (0, 10)).dist 0 = 10 := ⟨rfl, rfl⟩

theorem push_pull_amended_witness :
    (relaxEdgePP dPull 10 (1, 2)).sdist = min ((dPull 1 + 2) % M32) 10
    ∧ (ppProcess gPull dPull (0, 10)).dist 0 = dPull 0 :=
  ⟨((push_pull_amended dPull 10 (1, 2)).1 (by decide)).1,
   (push_pull_amended dPull 10 (1, 2)).2 gPull (0, 10) (by decide)⟩

/-! ## Claim C7 -/

/-- C7 (amended): an out-of-range startNode or reportNode makes the
driver fail fast inside `initialize`, with a diagnostic and `abort()`,
before any distance cell is written or any relaxation runs (the model
yields `none`, producing no state at all).  A negative delta value,
however, is NOT validated anywhere: the configuration check never reads
it and the driver proceeds — see `negative_delta_not_checked`. -/
theorem bad_node_config_fails_fast (g : Graph) (startN reportN : Nat)
    (delta : Int) (sch : List Nat)
    (h : ¬ (startN < g.n ∧ reportN < g.n)) :
    runModel g startN reportN delta sch = none := by
  have hfail : initPass g.n startN reportN delta = false := by
    unfold initPass
    rcases not_and_or.mp h with h | h
    · rw [decide_eq_true (Nat.le_of_not_lt h)]
      simp
    · rw [decide_eq_true (Nat.le_of_not_lt h)]
      simp
  unfold runModel
  rw [hfail]
  simp

/-- C7 counterexample: with a one-vertex graph, both node options in
range and `delta = -5` — a bad configuration per the claim — the driver
does not fail fast: the check never reads delta and the run proceeds. -/
theorem negative_delta_not_checked :
    (runModel gOne 0 0 (-5) []).isSome = true := rfl

theorem bad_node_config_fails_fast_witness :
    runModel gOne 5 0 0 [] = none :=
  bad_node_config_fails_fast gOne 5 0 0 [] (by decide)

/-! ## Claim C8 -/

/-- C8: a successful relaxation (`newDist < dist[u]`) increments the
`BadWork` statistic by exactly 1 when the overwritten `oldDist` was not
`INF`, and leaves it at 0 when `oldDist = INF` (a first reach is never
bad work); an unsuccessful call never touches it.  This holds for both
the request-carrying and the set variant. -/
theorem badwork_counting (dist : Nat → Nat) (sdist : Nat) (e : Nat × Nat) :
    ((sdist + e.2) % M32 < dist e.1 →
      (relaxEdge dist sdist e).bad = (if dist e.1 ≠ INF then 1 else 0)
      ∧ (relaxEdgeSet dist sdist e).bad = (if dist e.1 ≠ INF then 1 else 0))
    ∧ (¬ (sdist + e.2) % M32 < dist e.1 →
      (relaxEdge dist sdist e).bad = 0
      ∧ (relaxEdgeSet dist sdist e).bad = 0) := by
  constructor
  · intro hlt
    rw [relaxEdge_of_lt hlt, relaxEdgeSet_of_lt hlt]
    exact ⟨rfl, rfl⟩
  · intro hge
    rw [relaxEdge_of_ge hge, relaxEdgeSet_of_ge hge]
    exact ⟨rfl, rfl⟩

theorem badwork_counting_witness :
    (relaxEdge dWit 0 (1, 3)).bad = (if dWit 1 ≠ INF then 1 else 0)
    ∧ (relaxEdgeSet dWit 0 (2, 3)).bad = (if dWit 2 ≠ INF then 1 else 0) :=
  ⟨((badwork_counting dWit 0 (1, 3)).1 (by decide)).1,
   ((badwork_counting dWit 0 (2, 3)).1 (by decide)).2⟩

/-! ## Claim C9 -/

theorem minWeightTo_cons (e : Nat × Nat) (es : List (Nat × Nat)) (u : Nat) :
    minWeightTo (e :: es) u =
      (if e.1 = u then min e.2 (minWeightTo es u) else minWeightTo es u) := rfl

theorem minWeightTo_le_INF (u : Nat) :
    ∀ es : List (Nat × Nat), minWeightTo es u ≤ INF := by
  intro es
  induction es with
  | nil => exact le_refl INF
  | cons e es ih =>
    rw [minWeightTo_cons]
    split
    · omega
    · exact ih

theorem initScan_min (source : Nat) (es : List (Nat × Nat)) :
    ∀ dist : Nat → Nat,
      dist source = 0 →
      (∀ x, dist x ≤ INF) →
      (∀ e ∈ es, e.2 < M32) →
      (initScan source es dist).dist source = 0
      ∧ (∀ u, u ≠ source →
          (initScan source es dist).dist u = min (minWeightTo es u) (dist u))
      ∧ (initScan source es dist).pushes = specInitBag dist es := by
  induction es with
  | nil =>
    intro dist h0 hle _
    refine ⟨h0, ?_, rfl⟩
    intro u _
    show dist u = min (minWeightTo [] u) (dist u)
    have h1 : minWeightTo [] u = INF := rfl
    have h2 := hle u
    omega
  | cons e es ih =>
    intro dist h0 hle hw
    have hwe : e.2 < M32 := hw e (List.mem_cons_self e es)
    have hw' : ∀ e' ∈ es, e'.2 < M32 :=
      fun e' he' => hw e' (List.mem_cons_of_mem _ he')
    have hcond : (dist source + e.2) % M32 = e.2 := by
      rw [h0, Nat.zero_add]
      exact Nat.mod_eq_of_lt hwe
    by_cases hlt : e.2 < dist e.1
    · -- strictly improving initial relaxation
      have hrel : (dist source + e.2) % M32 < dist e.1 := by
        rw [hcond]
        exact hlt
      have hsne : source ≠ e.1 := by
        intro hcon
        rw [← hcon, h0] at hlt
        omega
      have hgd : (initScan source (e :: es) dist).dist =
          (initScan source es (fun x => if x = e.1 then e.2 else dist x)).dist := by
        rw [initScan_cons_dist]
        simp only [relaxEdge_of_lt hrel, hcond]
      have hgp : (initScan source (e :: es) dist).pushes =
          (e.1, e.2) :: (initScan source es
            (fun x => if x = e.1 then e.2 else dist x)).pushes := by
        rw [initScan_cons_pushes]
        simp only [relaxEdge_of_lt hrel, hcond]
        rfl
      have h0' : (if source = e.1 then e.2 else dist source) = 0 := by
        rw [if_neg hsne]
        exact h0
      have hle' : ∀ x, (if x = e.1 then e.2 else dist x) ≤ INF := by
        intro x
        by_cases hx : x = e.1
        · simp only [if_pos hx]
          have := hle e.1
          omega
        · simp only [if_neg hx]
          exact hle x
      obtain ⟨i0, i1, i2⟩ := ih (fun x => if x = e.1 then e.2 else dist x) h0' hle' hw'
      refine ⟨?_, ?_, ?_⟩
      · rw [hgd]
        exact i0
      · intro u hu
        rw [hgd, i1 u hu, minWeightTo_cons]
        by_cases hue : e.1 = u
        · rw [if_pos hue]
          have hd1 : (if u = e.1 then e.2 else dist u) = e.2 := if_pos hue.symm
          rw [hd1]
          have hdu : dist u = dist e.1 := by rw [hue]
          omega
        · rw [if_neg hue]
          have hd1 : (if u = e.1 then e.2 else dist u) = dist u :=
            if_neg (fun hcon => hue hcon.symm)
          rw [hd1]
      · rw [hgp, i2]
        simp only [specInitBag]
        rw [if_pos hlt]
    · -- not improving: no push, no change
      have hge : ¬ (dist source + e.2) % M32 < dist e.1 := by
        rw [hcond]
        exact hlt
      have hgd : (initScan source (e :: es) dist).dist =
          (initScan source es dist).dist := by
        rw [initScan_cons_dist]
        simp only [relaxEdge_of_ge hge]
      have hgp : (initScan source (e :: es) dist).pushes =
          (initScan source es dist).pushes := by
        rw [initScan_cons_pushes]
        simp only [relaxEdge_of_ge hge]
        rfl
      obtain ⟨i0, i1, i2⟩ := ih dist h0 hle hw'
      refine ⟨?_, ?_, ?_⟩
      · rw [hgd]
        exact i0
      · intro u hu
        rw [hgd, i1 u hu, minWeightTo_cons]
        by_cases hue : e.1 = u
        · rw [if_pos hue]
          have hdu : dist u = dist e.1 := by rw [hue]
          omega
        · rw [if_neg hue]
      · rw [hgp, i2]
        simp only [specInitBag]
        rw [if_neg hlt]

/-- C9: after the driver initialization of the request-carrying
algorithm (all distances `INF`, then `dist[source] = 0`, then each
out-edge of `source` relaxed directly into the initial bag): the source
distance is 0; every vertex `u ≠ source` holds exactly the minimum
weight among the parallel edges from `source` to `u` — `INF` when there
is none, so non-neighbors stay unreached and `dist[u] ≤ w` for each edge
`(source→u, w)`; and the bag holds exactly one request `(u, w)` per
strictly improving initial relaxation, in scan order. -/
theorem async_initial_frontier (g : Graph) (source : Nat)
    (hw : ∀ e ∈ g.adj source, e.2 < M32) :
    (ainit g source).dist source = 0
    ∧ (∀ u, u ≠ source → (ainit g source).dist u = minWeightTo (g.adj source) u)
    ∧ (ainit g source).wl =
        specInitBag (fun v => if v = source then 0 else INF) (g.adj source) := by
  have hd : (ainit g source).dist = (initScan source (g.adj source)
      (fun v => if v = source then 0 else INF)).dist := rfl
  have hwl : (ainit g source).wl = (initScan source (g.adj source)
      (fun v => if v = source then 0 else INF)).pushes := rfl
  obtain ⟨i0, i1, i2⟩ := initScan_min source (g.adj source)
    (fun v => if v = source then 0 else INF) (by simp)
    (fun x => by by_cases hx : x = source <;> simp [hx]) hw
  refine ⟨by rw [hd]; exact i0, ?_, by rw [hwl]; exact i2⟩
  intro u hu
  rw [hd, i1 u hu]
  simp only [if_neg hu]
  have := minWeightTo_le_INF u (g.adj source)
  omega

theorem async_initial_frontier_witness :
    (ainit gPar 0).dist 1 = minWeightTo (gPar.adj 0) 1
    ∧ (ainit gPar 0).wl =
        specInitBag (fun v => if v = 0 then 0 else INF) (gPar.adj 0) :=
  ⟨(async_initial_frontier gPar 0 (by decide)).2.1 1 (by decide),
   (async_initial_frontier gPar 0 (by decide)).2.2⟩

/-! ## Claim C10 -/

theorem loadEdges_cons (hasData : Bool) (n : Nat) (r : Nat × Nat × Nat)
    (rest : List (Nat × Nat × Nat)) (h1 : r.1 < n) (h2 : r.2.1 < n) :
    loadEdgesFromEdgeList hasData n (r :: rest) =
      match loadEdgesFromEdgeList hasData n rest with
      | none => none
      | some tail =>
        some (r.1 :: r.2.1 :: (if hasData then r.2.2 :: tail else tail)) := by
  rw [show loadEdgesFromEdgeList hasData n (r :: rest) =
      (galoisAssert (decide (r.1 < n)) <|
       galoisAssert (decide (r.2.1 < n)) <|
       match loadEdgesFromEdgeList hasData n rest with
       | none => none
       | some tail =>
         some (r.1 :: r.2.1 :: (if hasData then r.2.2 :: tail else tail)))
    from rfl]
  unfold galoisAssert
  rw [decide_eq_true h1, decide_eq_true h2]
  simp

/-- C10: every edge-list load that returns (rather than aborting on a
failed assertion) yields a vector in which every stored source and
destination vertex id is strictly below `totalNumNodes` (for a non-void
edge-data type the data elements sit at positions congruent to 2 mod 3
and are unconstrained), whose length is exactly 2 times the number of
edges read when the edge-data type is void and exactly 3 times that
number otherwise, so that `getNumEdges` applied to the returned vector
gives back exactly the number of edges read. -/
theorem loadEdges_shape (hasData : Bool) (n : Nat) :
    ∀ (records : List (Nat × Nat × Nat)) (out : List Nat),
      loadEdgesFromEdgeList hasData n records = some out →
      out.length = (if hasData then 3 else 2) * records.length
      ∧ getNumEdges hasData out = records.length
      ∧ (∀ i x, out[i]? = some x → (hasData = true → i % 3 ≠ 2) → x < n) := by
  intro records
  induction records with
  | nil =>
    intro out h
    have h0 : some ([] : List Nat) = some out := h
    injection h0 with h0
    subst h0
    refine ⟨by simp, by cases hasData <;> simp [getNumEdges], ?_⟩
    intro i x hx
    simp at hx
  | cons r rest ih =>
    intro out h
    by_cases h1 : r.1 < n
    · by_cases h2 : r.2.1 < n
      · rw [loadEdges_cons hasData n r rest h1 h2] at h
        cases hrest : loadEdgesFromEdgeList hasData n rest with
        | none =>
          rw [hrest] at h
          simp at h
        | some tail =>
          rw [hrest] at h
          simp only [Option.some.injEq] at h
          subst h
          obtain ⟨l1, l2, l3⟩ := ih tail hrest
          cases hasData with
          | false =>
            simp only [Bool.false_eq_true, if_false] at l1 ⊢
            refine ⟨?_, ?_, ?_⟩
            · simp only [List.length_cons]
              omega
            · simp only [getNumEdges, Bool.false_eq_true, if_false,
                List.length_cons] at l2 ⊢
              omega
            · intro i x hx htriv
              revert hx htriv
              match i with
              | 0 =>
                intro hx _
                simp only [List.getElem?_cons_zero, Option.some.injEq] at hx
                rw [← hx]
                exact h1
              | 1 =>
                intro hx _
                simp only [List.getElem?_cons_succ, List.getElem?_cons_zero,
                  Option.some.injEq] at hx
                rw [← hx]
                exact h2
              | (j + 2) =>
                intro hx _
                simp only [List.getElem?_cons_succ] at hx
                exact l3 j x hx (fun hcon => absurd hcon (by simp))
          | true =>
            simp only [if_true] at l1 ⊢
            refine ⟨?_, ?_, ?_⟩
            · simp only [List.length_cons]
              omega
            · simp only [getNumEdges, if_true, List.length_cons] at l2 ⊢
              omega
            · intro i x hx htriv
              revert hx htriv
              match i with
              | 0 =>
                intro hx _
                simp only [List.getElem?_cons_zero, Option.some.injEq] at hx
                rw [← hx]
                exact h1
              | 1 =>
                intro hx _
                simp only [List.getElem?_cons_succ, List.getElem?_cons_zero,
                  Option.some.injEq] at hx
                rw [← hx]
                exact h2
              | 2 =>
                intro _ htriv
                exact absurd (by norm_num) (htriv (by trivial))
              | (j + 3) =>
                intro hx htriv
                simp only [List.getElem?_cons_succ] at hx
                refine l3 j x hx (fun _ => ?_)
                have h3 := htriv (by trivial)
                omega
      · exfalso
        have hnone : loadEdgesFromEdgeList hasData n (r :: rest) = none := by
          rw [show loadEdgesFromEdgeList hasData n (r :: rest) =
              (galoisAssert (decide (r.1 < n)) <|
               galoisAssert (decide (r.2.1 < n)) <|
               match loadEdgesFromEdgeList hasData n rest with
               | none => none
               | some tail =>
                 some (r.1 :: r.2.1 :: (if hasData then r.2.2 :: tail else tail)))
            from rfl]
          unfold galoisAssert
          rw [decide_eq_false h2]
          split <;> simp
        rw [hnone] at h
        exact Option.noConfusion h
    · exfalso
      have hnone : loadEdgesFromEdgeList hasData n (r :: rest) = none := by
        rw [show loadEdgesFromEdgeList hasData n (r :: rest) =
            (galoisAssert (decide (r.1 < n)) <|
             galoisAssert (decide (r.2.1 < n)) <|
             match loadEdgesFromEdgeList hasData n rest with
             | none => none
             | some tail =>
               some (r.1 :: r.2.1 :: (if hasData then r.2.2 :: tail else tail)))
          from rfl]
        unfold galoisAssert
        rw [decide_eq_false h1]
        simp
      rw [hnone] at h
      exact Option.noConfusion h

theorem loadEdges_shape_witness :
    getNumEdges true [0, 1, 9, 2, 3, 7] = 2
    ∧ [0, 1, 9, 2, 3, 7].length = 6 :=
  ⟨(loadEdges_shape true 4 [(0, 1, 9), (2, 3, 7)] [0, 1, 9, 2, 3, 7] rfl).2.1,
   (loadEdges_shape true 4 [(0, 1, 9), (2, 3, 7)] [0, 1, 9, 2, 3, 7] rfl).1⟩
